import Mathlib

/-!
Verification of the static-site generator in `scripts/build.js`.

The definitions below are a shallow embedding of the functions of
`scripts/build.js`.  Strings are modelled as Lean `String`/`List Char`;
JavaScript timestamps (`Date.getTime()`) are modelled by a `Nat` code that
is order- and equality-isomorphic to the real timestamp on the ISO
`YYYY-MM-DD` date strings used by the posts; regular-expression based
replacements are modelled by explicit scanners implementing the exact
match semantics of the regex used at each site.  External libraries
(gray-matter, markdown-it, html-minifier-terser, WHATWG URL, ECMA-402
collation) are modelled at their interface, restricted to the inputs the
generator feeds them; every such restriction is recorded in the doc
comment of the modelling definition.
-/

/-! ## Character helpers -/

/-- ASCII view of the characters accepted by the slug character class
`[a-z0-9]` of `slugify` (`build.js:765`). -/
def isSlugAlnum (c : Char) : Bool :=
  (0x61 ≤ c.toNat && c.toNat ≤ 0x7a) || (0x30 ≤ c.toNat && c.toNat ≤ 0x39)

/-- Characters of the Unicode combining range `U+0300`–`U+036F`, the class
removed by `slugify`'s `.replace(/[̀-ͯ]/g, '')` (`build.js:763`). -/
def isCombiningMark (c : Char) : Bool :=
  0x300 ≤ c.toNat && c.toNat ≤ 0x36f

/-- Unicode NFD decomposition of a single character, as performed by
`String.prototype.normalize('NFD')` (`build.js:762`).  Modelled for the
Latin letters with diacritics that occur in Portuguese text (the
repository's content language); ASCII characters decompose to themselves.
Characters outside the table are kept unchanged, which agrees with NFD on
all characters without a canonical decomposition. -/
def nfdChar (c : Char) : List Char :=
  match c with
  | 'á' => ['a', Char.ofNat 0x301]
  | 'é' => ['e', Char.ofNat 0x301]
  | 'í' => ['i', Char.ofNat 0x301]
  | 'ó' => ['o', Char.ofNat 0x301]
  | 'ú' => ['u', Char.ofNat 0x301]
  | 'à' => ['a', Char.ofNat 0x300]
  | 'â' => ['a', Char.ofNat 0x302]
  | 'ê' => ['e', Char.ofNat 0x302]
  | 'ô' => ['o', Char.ofNat 0x302]
  | 'ã' => ['a', Char.ofNat 0x303]
  | 'õ' => ['o', Char.ofNat 0x303]
  | 'ç' => ['c', Char.ofNat 0x327]
  | 'Á' => ['A', Char.ofNat 0x301]
  | 'É' => ['E', Char.ofNat 0x301]
  | 'Í' => ['I', Char.ofNat 0x301]
  | 'Ó' => ['O', Char.ofNat 0x301]
  | 'Ú' => ['U', Char.ofNat 0x301]
  | 'À' => ['A', Char.ofNat 0x300]
  | 'Â' => ['A', Char.ofNat 0x302]
  | 'Ê' => ['E', Char.ofNat 0x302]
  | 'Ô' => ['O', Char.ofNat 0x302]
  | 'Ã' => ['A', Char.ofNat 0x303]
  | 'Õ' => ['O', Char.ofNat 0x303]
  | 'Ç' => ['C', Char.ofNat 0x327]
  | c => [c]

/-- JavaScript `String.prototype.toLowerCase` on one character, modelled
for the ASCII range (sufficient after NFD stripping of the Portuguese
diacritics; any remaining non-ASCII character is replaced by a hyphen by
the following step of `slugify` in either model or reality). -/
def jsToLowerChar (c : Char) : Char := c.toLower

/-! ## slugify (`build.js:760`–`768`) -/

mutual

/-- Scanner for `.replace(/[^a-z0-9]+/g, '-')` (`build.js:765`): each
maximal run of characters outside `[a-z0-9]` becomes a single hyphen.
`hyphenateSkip` consumes the remainder of a non-alphanumeric run whose
first character has already been replaced. -/
def hyphenateRuns : List Char → List Char
  | [] => []
  | c :: cs =>
    if isSlugAlnum c then c :: hyphenateRuns cs
    else '-' :: hyphenateSkip cs

def hyphenateSkip : List Char → List Char
  | [] => []
  | c :: cs =>
    if isSlugAlnum c then c :: hyphenateRuns cs
    else hyphenateSkip cs

end

/-- Scanner for `.replace(/(^-|-$)+/g, '')` (`build.js:766`).  The global
matches of this regex on a list of characters are: one match at position
0 when the string starts with a hyphen (this match also swallows a second
hyphen exactly when the whole string is `--`, the only way the `+` can
continue with the `-$` alternative), and one match at the last character
when it is a hyphen not already consumed. -/
def stripLeadHyphen : List Char → List Char
  | '-' :: rest => if rest = ['-'] then [] else rest
  | l => l

def stripEdgeHyphens (cs : List Char) : List Char :=
  if (stripLeadHyphen cs).getLast? = some '-' then (stripLeadHyphen cs).dropLast
  else stripLeadHyphen cs

/-- `slugify` (`build.js:760`–`768`): NFD-normalize, strip combining
marks, lower-case, collapse non-alphanumeric runs to hyphens, strip edge
hyphens, truncate to 80 characters (`.slice(0, 80)`). -/
def slugify (text : String) : String :=
  let decomposed := text.toList.flatMap nfdChar
  let stripped := decomposed.filter (fun c => !isCombiningMark c)
  let lowered := stripped.map jsToLowerChar
  let hyphenated := hyphenateRuns lowered
  let edged := stripEdgeHyphens hyphenated
  String.mk (edged.take 80)

/-! ## escapeHtml / escapeXml (`build.js:789`–`800`) -/

/-- One global single-character replacement, the meaning of
`String.prototype.replace(/c/g, rep)` for a one-character pattern. -/
def replaceChar (pat : Char) (rep : List Char) : List Char → List Char
  | [] => []
  | c :: cs => (if c = pat then rep else [c]) ++ replaceChar pat rep cs

/-- `escapeHtml` (`build.js:789`–`796`): the five sequential global
replacements, in source order (`&` first, then `<`, `>`, `"`, `'`). -/
def escapeHtml (value : String) : String :=
  String.mk
    (replaceChar (Char.ofNat 39) "&#39;".toList
      (replaceChar (Char.ofNat 34) "&quot;".toList
        (replaceChar '>' "&gt;".toList
          (replaceChar '<' "&lt;".toList
            (replaceChar '&' "&amp;".toList value.toList)))))

/-- `escapeXml` (`build.js:798`–`800`) delegates to `escapeHtml`. -/
def escapeXml (value : String) : String := escapeHtml value

/-- Number of occurrences of a character in a string. -/
def countChar (c : Char) (s : String) : Nat := s.toList.count c

example : slugify "Águas  Limpas!" = "aguas-limpas" := by decide
example : slugify "--x--" = "x" := by decide
example : escapeHtml "a<b&c" = "a&lt;b&amp;c" := by rfl

/-! ## Template engine (`renderTemplate`, `build.js:734`–`739`) -/

/-- JavaScript regex `\s` whitespace class, modelled for the ASCII
whitespace characters plus NBSP (JS `\s` additionally matches other
Unicode space separators, which do not occur in the repository's
templates). -/
def jsWs (c : Char) : Bool :=
  c = ' ' || c = '\t' || c = '\n' || c = '\r' ||
    c.toNat = 0x0b || c.toNat = 0x0c || c.toNat = 0xa0

/-- Character class `[a-zA-Z0-9_]` of the placeholder-name capture group
in `renderTemplate`'s regex (`build.js:735`). -/
def isNameChar (c : Char) : Bool :=
  (0x61 ≤ c.toNat && c.toNat ≤ 0x7a) || (0x41 ≤ c.toNat && c.toNat ≤ 0x5a) ||
    (0x30 ≤ c.toNat && c.toNat ≤ 0x39) || c = Char.ofNat 0x5f

/-- The opening and closing brace characters of a placeholder. -/
def lbrace : Char := Char.ofNat 0x7b

/-- Closing brace character. -/
def rbrace : Char := Char.ofNat 0x7d

/-- Attempt to match the placeholder regex
`/\x7b\x7b\s*([a-zA-Z0-9_]+)\s*\x7d\x7d/` at the head of the character
list.  Returns the captured name, the raw matched characters and the
remaining characters.  The greedy `\s*`/`+` quantifiers need no
backtracking here because the three character classes involved are
pairwise disjoint and disjoint from the brace delimiters. -/
def matchPlaceholder (cs : List Char) : Option (String × List Char × List Char) :=
  match cs with
  | c1 :: c2 :: rest =>
    if c1 = lbrace && c2 = lbrace then
      let ws1 := rest.takeWhile jsWs
      let afterWs := rest.dropWhile jsWs
      let name := afterWs.takeWhile isNameChar
      let afterName := afterWs.dropWhile isNameChar
      let ws2 := afterName.takeWhile jsWs
      let afterWs2 := afterName.dropWhile jsWs
      match name, afterWs2 with
      | [], _ => none
      | _, d1 :: d2 :: rest2 =>
        if d1 = rbrace && d2 = rbrace then
          some (String.mk name,
            lbrace :: lbrace :: ws1 ++ name ++ ws2 ++ [rbrace, rbrace], rest2)
        else none
      | _, _ => none
    else none
  | _ => none

/-- Value substituted for a placeholder (`build.js:736`–`737`):
`undefined`/`null` (modelled as `none`) becomes the empty string,
anything else its string form. -/
def jsSubstValue (v : Option String) : String := v.getD ""

/-- Fueled scanner core of `renderTemplate`: at every position, either
the placeholder regex matches (the replacement value is emitted and
scanning continues after the match) or one character is passed through.
Fueled with at least the list length, the fuel never runs out. -/
def renderScan (params : String → Option String) : Nat → List Char → List Char
  | 0, cs => cs
  | _ + 1, [] => []
  | fuel + 1, c :: cs =>
    match matchPlaceholder (c :: cs) with
    | some (name, _, rest) =>
      (jsSubstValue (params name)).toList ++ renderScan params fuel rest
    | none => c :: renderScan params fuel cs

/-- `renderTemplate` (`build.js:734`–`739`): global replacement of every
placeholder occurrence by its mapped value. -/
def renderTemplate (template : String) (params : String → Option String) : String :=
  String.mk (renderScan params template.toList.length template.toList)

/-- A template decomposes into literal characters and placeholder
occurrences; `raw` records the exact source text of a placeholder. -/
inductive TemplateSeg where
  | lit (c : Char)
  | ph (name : String) (raw : List Char)
deriving Repr, DecidableEq

/-- Decomposition of a template into segments, by the same leftmost scan
as the regex engine performs. -/
def segParse : Nat → List Char → List TemplateSeg
  | 0, _ => []
  | _ + 1, [] => []
  | fuel + 1, c :: cs =>
    match matchPlaceholder (c :: cs) with
    | some (name, raw, rest) => .ph name raw :: segParse fuel rest
    | none => .lit c :: segParse fuel cs

/-- Reassembles the source text of a segment list. -/
def segSource (segs : List TemplateSeg) : List Char :=
  segs.flatMap fun s =>
    match s with
    | .lit c => [c]
    | .ph _ raw => raw

/-- Renders a segment list: literals pass through unchanged, placeholders
become their mapped value (or the empty string when unmapped). -/
def segRender (params : String → Option String) (segs : List TemplateSeg) : List Char :=
  segs.flatMap fun s =>
    match s with
    | .lit c => [c]
    | .ph name _ => (jsSubstValue (params name)).toList

/-- Segments of a template string. -/
def templateSegs (template : String) : List TemplateSeg :=
  segParse template.toList.length template.toList

/-! ## addLazyLoadingToImages (`build.js:741`–`743`) -/

/-- Head test for the regex `/<img\s+/`: the literal `<img` followed by at
least one whitespace character. -/
def isImgWsHead : List Char → Bool
  | '<' :: 'i' :: 'm' :: 'g' :: d :: _ => jsWs d
  | _ => false

/-- Replacement text `<img loading="lazy" ` of `addLazyLoadingToImages`. -/
def lazyReplacement : List Char := "<img loading=\x22lazy\x22 ".toList

/-- Fueled scanner for `html.replace(/<img\s+/g, '<img loading="lazy" ')`:
a match consumes `<img` and the whole greedy whitespace run. -/
def lazyScan : Nat → List Char → List Char
  | 0, cs => cs
  | _ + 1, [] => []
  | fuel + 1, c :: cs =>
    if isImgWsHead (c :: cs) then
      lazyReplacement ++ lazyScan fuel ((cs.drop 3).dropWhile jsWs)
    else c :: lazyScan fuel cs

/-- `addLazyLoadingToImages` (`build.js:741`–`743`). -/
def addLazyLoadingToImages (html : String) : String :=
  String.mk (lazyScan html.toList.length html.toList)

/-- A violation of the lazy-loading property at the head of a character
list: an `<img` immediately followed by whitespace that is not followed by
exactly the attribute text ` loading="lazy" `. -/
def lazyViolationAt : List Char → Bool
  | '<' :: 'i' :: 'm' :: 'g' :: d :: rest =>
    jsWs d && !(d = ' ' && rest.take 15 = "loading=\x22lazy\x22 ".toList)
  | _ => false

/-- Sliding check that no position of the list carries a lazy-loading
violation: every `<img` followed by whitespace is immediately followed by
the attribute ` loading="lazy" `. -/
def lazyOkList : List Char → Bool
  | [] => true
  | c :: cs => !lazyViolationAt (c :: cs) && lazyOkList cs

/-- Count of occurrences of `<img` followed by whitespace. -/
def countImgWs : List Char → Nat
  | [] => 0
  | c :: cs => (if isImgWsHead (c :: cs) then 1 else 0) + countImgWs cs

example :
    renderTemplate "a \x7b\x7b t \x7d\x7d b \x7b\x7bu\x7d\x7d"
      (fun k => if k = "t" then some "X" else none) = "a X b " := by decide
example : addLazyLoadingToImages "<p><img   src=\x22x\x22></p>" =
    "<p><img loading=\x22lazy\x22 src=\x22x\x22></p>" := by decide
example : lazyOkList "<img loading=\x22lazy\x22 src=1><img>".toList = true := by decide
example : lazyOkList "<img src=1>".toList = false := by decide

/-! ## Site configuration and URLs -/

/-- The site configuration (`build.js:19`–`26`): the absolute origin and
the base path prefix, fixed at startup from the environment.  The other
`SITE` fields (name, description, ads client) are constant strings not
involved in any claim. -/
structure SiteConfig where
  origin : String
  basePath : String
deriving Repr, DecidableEq

/-- The configuration obtained with no environment overrides
(`inferDefaultOrigin`/`normalizeOrigin`/`normalizeBasePath`,
`build.js:670`–`702`). -/
def defaultSite : SiteConfig :=
  { origin := "https://miguel-br-dl.github.io", basePath := "" }

/-- JavaScript `String.prototype.trim` (whitespace as in `jsWs`). -/
def jsTrim (s : String) : String :=
  String.mk (((s.toList.dropWhile jsWs).reverse.dropWhile jsWs).reverse)

/-- Prefix test over character lists. -/
def startsWithChars : List Char → List Char → Bool
  | _, [] => true
  | [], _ :: _ => false
  | c :: cs, p :: ps => c = p && startsWithChars cs ps

/-- Prefix test on strings (kernel-computable form of `startsWith`). -/
def strStartsWith (s pre : String) : Bool :=
  startsWithChars s.toList pre.toList

/-- ASCII lower-casing of a whole string. -/
def strToLower (s : String) : String := String.mk (s.toList.map jsToLowerChar)

/-- ASCII letter test (first character of a URL scheme). -/
def isAsciiAlpha (c : Char) : Bool :=
  (0x41 ≤ c.toNat && c.toNat ≤ 0x5a) || (0x61 ≤ c.toNat && c.toNat ≤ 0x7a)

/-- Subsequent URL-scheme characters: `[A-Za-z0-9+.-]`. -/
def isSchemeChar (c : Char) : Bool :=
  isAsciiAlpha c || ('0' ≤ c && c ≤ '9') || c = '+' || c = '.' || c = '-'

/-- Splits a leading `scheme:` from a URL string, per the WHATWG URL
scheme grammar (one ASCII letter, then letters/digits/`+`/`.`/`-`, then a
colon).  `none` means the string is a relative reference. -/
def schemeSplit (s : String) : Option (String × String) :=
  match s.toList with
  | [] => none
  | c :: cs =>
    if isAsciiAlpha c then
      let schemeChars := c :: cs.takeWhile isSchemeChar
      match cs.dropWhile isSchemeChar with
      | ':' :: r => some (String.mk schemeChars, String.mk r)
      | _ => none
    else none

/-- Default port of the WHATWG special schemes with a host-based origin. -/
def specialSchemePort (sch : String) : Option Nat :=
  if sch = "http" then some 80
  else if sch = "https" then some 443
  else if sch = "ws" then some 80
  else if sch = "wss" then some 443
  else if sch = "ftp" then some 21
  else none

/-- Numeric value of a digit list. -/
def natOfDigits (ds : List Char) : Nat :=
  ds.foldl (fun n c => n * 10 + (c.toNat - 0x30)) 0

/-- Origin of `scheme://authority...` for a special scheme: lower-cased
host, default port elided.  Modelled from the WHATWG URL Standard,
restricted to authorities without user info or IPv6 brackets (`none`
models the `new URL` constructor throwing). -/
def parseAuthorityOrigin (sch rest : String) : Option String :=
  match rest.toList with
  | '/' :: '/' :: r =>
    let auth := r.takeWhile (fun c => c ≠ '/' && c ≠ '?' && c ≠ '#')
    if auth.contains '@' || auth.contains '[' then none
    else
      let host := auth.takeWhile (fun c => c ≠ ':')
      if host = [] then none
      else
        let hostStr := String.mk (host.map jsToLowerChar)
        match auth.dropWhile (fun c => c ≠ ':') with
        | [] => some (sch ++ "://" ++ hostStr)
        | _ :: pd =>
          if pd = [] then some (sch ++ "://" ++ hostStr)
          else if pd.all (fun c => '0' ≤ c && c ≤ '9') then
            let p := natOfDigits pd
            if 65535 < p then none
            else if specialSchemePort sch = some p then
              some (sch ++ "://" ++ hostStr)
            else some (sch ++ "://" ++ hostStr ++ ":" ++ toString p)
          else none
  | _ => none

/-- `new URL(value).origin` for an absolute URL string: special schemes
have a host-based origin, every other scheme has the opaque origin
`"null"` (as `URL.prototype.origin` serializes it). -/
def absUrlOrigin (value : String) : Option String :=
  match schemeSplit value with
  | none => none
  | some (sch, rest) =>
    let schL := strToLower sch
    match specialSchemePort schL with
    | some _ => parseAuthorityOrigin schL rest
    | none => some "null"

/-- `new URL(value, base).origin`: an absolute `value` ignores the base; a
relative reference takes the origin of the (special-scheme) base.  `none`
models the constructor throwing. -/
def jsUrlOrigin (value base : String) : Option String :=
  match schemeSplit value with
  | some _ => absUrlOrigin value
  | none =>
    match schemeSplit base with
    | some (bsch, _) =>
      if (specialSchemePort (strToLower bsch)).isSome then absUrlOrigin base else none
    | none => none

/-- `isExternalLink` (`build.js:647`–`668`). -/
def isExternalLink (site : SiteConfig) (href : Option String) : Bool :=
  match href with
  | none => false
  | some h =>
    let value := jsTrim h
    if value = "" then false
    else if strStartsWith value "#" || strStartsWith value "/" then false
    else if strStartsWith (strToLower value) "mailto:" ||
        strStartsWith (strToLower value) "tel:" ||
        strStartsWith (strToLower value) "javascript:" then false
    else
      match jsUrlOrigin value site.origin, absUrlOrigin site.origin with
      | some o1, some o2 => o1 != o2
      | _, _ => false

/-- A markdown-it `link_open` token, reduced to its attribute list (the
only state the overridden renderer rule touches). -/
structure LinkToken where
  attrs : List (String × String)
deriving Repr, DecidableEq

/-- markdown-it `Token.attrGet`: value of the first attribute with the
given name. -/
def LinkToken.attrGet (t : LinkToken) (name : String) : Option String :=
  (t.attrs.find? (fun a => a.1 = name)).map (·.2)

/-- Replace the value of the first attribute with the given name, or
append a new attribute (markdown-it `Token.attrSet`). -/
def setFirstAttr : List (String × String) → String → String → List (String × String)
  | [], n, v => [(n, v)]
  | (a, b) :: rest, n, v =>
    if a = n then (a, v) :: rest else (a, b) :: setFirstAttr rest n v

/-- markdown-it `Token.attrSet` on a link token. -/
def LinkToken.attrSet (t : LinkToken) (name v : String) : LinkToken :=
  ⟨setFirstAttr t.attrs name v⟩

/-- The overridden `link_open` renderer rule (`build.js:57`–`65`), at the
token level: external links get `target="_blank"` and
`rel="noopener noreferrer"`; the default renderer then serializes the
token's attributes unchanged. -/
def linkOpenRule (site : SiteConfig) (t : LinkToken) : LinkToken :=
  if isExternalLink site (t.attrGet "href") then
    (t.attrSet "target" "_blank").attrSet "rel" "noopener noreferrer"
  else t

example : isExternalLink defaultSite (some "https://example.com/a") = true := by decide
example : isExternalLink defaultSite (some "https://MIGUEL-BR-DL.github.IO/x") = false := by
  decide
example : isExternalLink defaultSite (some "#frag") = false := by decide
example : isExternalLink defaultSite (some "/rel/path.html") = false := by decide
example : isExternalLink defaultSite (some "mailto:a@b.c") = false := by decide
example : isExternalLink defaultSite (some "docs/page.html") = false := by decide

/-! ## Dates -/

/-- Digit test. -/
def isDigitChar (c : Char) : Bool := 0x30 ≤ c.toNat && c.toNat ≤ 0x39

/-- Numeric value of one digit character. -/
def digitVal (c : Char) : Nat := c.toNat - 0x30

/-- Parse by `new Date(...)` (`build.js:135`), modelled for the ISO
`YYYY-MM-DD` date-only form the posts use.  The result is the code
`(y*12 + (m-1))*31 + (d-1)`, which is strictly monotone in and injective
on calendar dates, hence order- and equality-isomorphic to
`Date.getTime()` on this input family.  Month and day are range-checked
as the ISO parser does (day bounds modelled as 1–31 uniformly);
`none` models an Invalid Date (`NaN` time value). -/
def parseIsoDate (s : String) : Option Nat :=
  match s.toList with
  | [y1, y2, y3, y4, '-', m1, m2, '-', d1, d2] =>
    if [y1, y2, y3, y4, m1, m2, d1, d2].all isDigitChar then
      let y := ((digitVal y1 * 10 + digitVal y2) * 10 + digitVal y3) * 10 + digitVal y4
      let m := digitVal m1 * 10 + digitVal m2
      let d := digitVal d1 * 10 + digitVal d2
      if 1 ≤ m && m ≤ 12 && 1 ≤ d && d ≤ 31 then
        some ((y * 12 + (m - 1)) * 31 + (d - 1))
      else none
    else none
  | _ => none

/-- Year component of a date code. -/
def dateYear (t : Nat) : Nat := t / 372

/-- Month component (1–12) of a date code. -/
def dateMonth (t : Nat) : Nat := t / 31 % 12 + 1

/-- Day component (1–31) of a date code. -/
def dateDay (t : Nat) : Nat := t % 31 + 1

/-- Last decimal digit as a character. -/
def digitChar (n : Nat) : Char := Char.ofNat (0x30 + n % 10)

/-- Two-digit zero-padded decimal. -/
def pad2 (n : Nat) : String := String.mk [digitChar (n / 10), digitChar n]

/-- Four-digit zero-padded decimal. -/
def pad4 (n : Nat) : String :=
  String.mk [digitChar (n / 1000), digitChar (n / 100), digitChar (n / 10), digitChar n]

/-- `Date.prototype.toISOString` (`build.js:150`) for the midnight-UTC
timestamps a `YYYY-MM-DD` string parses to. -/
def isoStringOf (t : Nat) : String :=
  pad4 (dateYear t) ++ "-" ++ pad2 (dateMonth t) ++ "-" ++ pad2 (dateDay t) ++
    "T00:00:00.000Z"

/-- Portuguese month names used by `Intl.DateTimeFormat('pt-BR', \x7bmonth:
'long'\x7d)`. -/
def ptMonthName (m : Nat) : String :=
  (["janeiro", "fevereiro", "março", "abril", "maio", "junho", "julho",
    "agosto", "setembro", "outubro", "novembro", "dezembro"]).getD (m - 1) ""

/-- `formatDate` (`build.js:745`–`751`): the pt-BR long date format
`dd de <month> de yyyy` (two-digit day, long month, numeric year). -/
def formatDate (t : Nat) : String :=
  pad2 (dateDay t) ++ " de " ++ ptMonthName (dateMonth t) ++ " de " ++
    toString (dateYear t)

/-- Day of week by Zeller's congruence (0 = Saturday). -/
def zellerDow (y m d : Nat) : Nat :=
  let yy := if m < 3 then y - 1 else y
  let mm := if m < 3 then m + 12 else m
  (d + (13 * (mm + 1)) / 5 + yy % 100 + yy % 100 / 4 + yy / 100 / 4 + 5 * (yy / 100)) % 7

/-- English weekday abbreviations indexed by Zeller's value. -/
def zellerDowName (h : Nat) : String :=
  (["Sat", "Sun", "Mon", "Tue", "Wed", "Thu", "Fri"]).getD h ""

/-- English month abbreviations. -/
def enMonthAbbr (m : Nat) : String :=
  (["Jan", "Feb", "Mar", "Apr", "May", "Jun", "Jul", "Aug", "Sep", "Oct",
    "Nov", "Dec"]).getD (m - 1) ""

/-- `Date.prototype.toUTCString` for the midnight-UTC timestamps of this
model, e.g. `Sat, 14 Feb 2026 00:00:00 GMT`. -/
def utcStringOf (t : Nat) : String :=
  zellerDowName (zellerDow (dateYear t) (dateMonth t) (dateDay t)) ++ ", " ++
    pad2 (dateDay t) ++ " " ++ enMonthAbbr (dateMonth t) ++ " " ++
    pad4 (dateYear t) ++ " 00:00:00 GMT"

/-- Suffix test on strings. -/
def strEndsWith (s suf : String) : Bool :=
  startsWithChars s.toList.reverse suf.toList.reverse

/-- `new Date(s)` for the extended ISO strings this model produces
(`YYYY-MM-DDT00:00:00.000Z`) as well as plain `YYYY-MM-DD`. -/
def parseIsoDateTime (s : String) : Option Nat :=
  if strEndsWith s "T00:00:00.000Z" then
    parseIsoDate (String.mk (s.toList.take (s.toList.length - 14)))
  else parseIsoDate s

example : parseIsoDate "2026-02-14" = some ((2026 * 12 + 1) * 31 + 13) := by decide
example : isoStringOf ((2026 * 12 + 1) * 31 + 13) = "2026-02-14T00:00:00.000Z" := by decide
example : formatDate ((2026 * 12 + 1) * 31 + 13) = "14 de fevereiro de 2026" := by decide
example : utcStringOf ((2026 * 12 + 1) * 31 + 13) = "Sat, 14 Feb 2026 00:00:00 GMT" := by
  decide

/-! ## Frontmatter and post loading (`build.js:124`–`179`) -/

/-- Parsed frontmatter of a post file (the `data` object gray-matter
returns).  Each field is `none` when the key is absent from the metadata
header.  `tags` is `some none` when the key is present with a non-array
value and `some (some l)` when it holds an array (whose elements are
recorded via their `String(tag)` form; scalar fields likewise via their
string form). -/
structure Frontmatter where
  title : Option String := none
  date : Option String := none
  category : Option String := none
  summary : Option String := none
  readingTime : Option String := none
  tags : Option (Option (List String)) := none
  coverImage : Option String := none
deriving Repr, DecidableEq

/-- `REQUIRED_FRONTMATTER_FIELDS` (`build.js:28`–`36`). -/
def REQUIRED_FRONTMATTER_FIELDS : List String :=
  ["title", "date", "category", "summary", "readingTime", "tags", "coverImage"]

/-- The `field in data` presence test used by `validateFrontmatter`. -/
def Frontmatter.hasField (data : Frontmatter) (field : String) : Bool :=
  if field = "title" then data.title.isSome
  else if field = "date" then data.date.isSome
  else if field = "category" then data.category.isSome
  else if field = "summary" then data.summary.isSome
  else if field = "readingTime" then data.readingTime.isSome
  else if field = "tags" then data.tags.isSome
  else if field = "coverImage" then data.coverImage.isSome
  else false

/-- The list of required fields absent from the metadata header, in the
order of `REQUIRED_FRONTMATTER_FIELDS` (`build.js:170`). -/
def missingFields (data : Frontmatter) : List String :=
  REQUIRED_FRONTMATTER_FIELDS.filter (fun f => !data.hasField f)

/-- Whether `data.tags` is a non-empty array
(`Array.isArray(data.tags) && data.tags.length > 0`). -/
def tagsNonEmptyList (data : Frontmatter) : Bool :=
  match data.tags with
  | some (some (_ :: _)) => true
  | _ => false

/-- `validateFrontmatter` (`build.js:169`–`179`): missing required fields
first, then the non-empty-tags check; an `Error` is modelled as
`Except.error` carrying the message. -/
def validateFrontmatter (filename : String) (data : Frontmatter) : Except String Unit :=
  let missing := missingFields data
  if missing.length > 0 then
    .error (filename ++ " está sem os campos obrigatórios: " ++
      String.intercalate ", " missing)
  else if !tagsNonEmptyList data then
    .error (filename ++ " deve ter ao menos uma tag em \x22tags\x22.")
  else .ok ()

/-- A post source file after gray-matter parsing: the file name as listed
by `readdir`, the frontmatter object, and the HTML that
`md.render(parsed.content)` produces for the Markdown body (the
markdown-it library's output is taken as an opaque input here). -/
structure SourceFile where
  name : String
  data : Frontmatter
  renderedBody : String
deriving Repr, DecidableEq

/-- `path.basename(file, '.md')` for the plain file names `readdir`
yields: drops a final `.md`. -/
def basenameMd (name : String) : String :=
  if strEndsWith name ".md" then String.mk (name.toList.take (name.toList.length - 3))
  else name

/-- `String(v)` for a possibly-absent string value. -/
def jsString (v : Option String) : String := v.getD "undefined"

/-! ## stripHtml (`build.js:753`–`758`) -/

/-- Fueled scanner for `html.replace(/<[^>]+>/g, ' ')`: a `<` followed by
at least one non-`>` character and a closing `>` is replaced by one
space; an unmatched `<` passes through. -/
def stripTagsScan : Nat → List Char → List Char
  | 0, cs => cs
  | _ + 1, [] => []
  | fuel + 1, c :: cs =>
    if c = '<' then
      match cs.takeWhile (fun d => d ≠ '>'), cs.dropWhile (fun d => d ≠ '>') with
      | _ :: _, _ :: rest2 => ' ' :: stripTagsScan fuel rest2
      | _, _ => c :: stripTagsScan fuel cs
    else c :: stripTagsScan fuel cs

mutual

/-- Scanner for `.replace(/\s+/g, ' ')`: each maximal whitespace run
becomes a single space. -/
def collapseWsRuns : List Char → List Char
  | [] => []
  | c :: cs =>
    if jsWs c then ' ' :: collapseWsSkip cs
    else c :: collapseWsRuns cs

def collapseWsSkip : List Char → List Char
  | [] => []
  | c :: cs =>
    if jsWs c then collapseWsSkip cs
    else c :: collapseWsRuns cs

end

/-- `stripHtml` (`build.js:753`–`758`). -/
def stripHtml (html : String) : String :=
  jsTrim (String.mk (collapseWsRuns (stripTagsScan html.toList.length html.toList)))

/-! ## URL helpers (`build.js:704`–`732`) -/

/-- `normalizePath` (`build.js:724`–`732`). -/
def normalizePath (rawPath : String) : String :=
  let value := jsTrim rawPath
  if value = "" || value = "/" then "/"
  else if strStartsWith value "/" then value
  else "/" ++ value

/-- The `/^https?:\/\//i` test of `toPublicUrl`/`toAbsoluteUrl`. -/
def isHttpAbsolute (s : String) : Bool :=
  strStartsWith (strToLower s) "http://" || strStartsWith (strToLower s) "https://"

/-- `toPublicUrl` (`build.js:704`–`712`). -/
def toPublicUrl (site : SiteConfig) (rawPath : String) : String :=
  if isHttpAbsolute rawPath then rawPath
  else
    let pathWithBase := site.basePath ++ normalizePath rawPath
    if pathWithBase = "" then "/" else pathWithBase

/-- `toAbsoluteUrl` (`build.js:714`–`722`):
`new URL(pathWithBase, SITE.origin).toString()`, modelled for origins of
the shape `normalizeOrigin` produces (scheme and host, no path, no
trailing slash). -/
def toAbsoluteUrl (site : SiteConfig) (rawPath : String) : String :=
  if isHttpAbsolute rawPath then rawPath
  else
    let pathWithBase := site.basePath ++ normalizePath rawPath
    site.origin ++ (if pathWithBase = "" then "/" else pathWithBase)

/-! ## Post records and loadPosts (`build.js:124`–`167`) -/

/-- A loaded post record (`build.js:146`–`163`).  `date` carries the date
code of `parseIsoDate` (order-isomorphic to the JS timestamp). -/
structure Post where
  slug : String
  title : String
  date : Nat
  isoDate : String
  formattedDate : String
  category : String
  summary : String
  readingTime : String
  tags : List String
  tagSlugs : List (String × String)
  coverImage : String
  coverImageAbsolute : String
  url : String
  absoluteUrl : String
  htmlContent : String
  plainText : String
deriving Repr, DecidableEq, Inhabited

/-- Body of the `for` loop of `loadPosts` (`build.js:128`–`164`):
validation, slug and date derivation, tag normalization and the record
construction.  `Object.fromEntries(tags.map(t => [t, slugify(t)]))` is
modelled as the corresponding association list. -/
def loadOnePost (site : SiteConfig) (file : SourceFile) : Except String Post :=
  match validateFrontmatter file.name file.data with
  | .error e => .error e
  | .ok () =>
    let slug := slugify (basenameMd file.name)
    let dateStr := jsString file.data.date
    match parseIsoDate dateStr with
    | none => .error ("Data inválida em " ++ file.name ++ ": " ++ dateStr)
    | some t =>
      let tags := (match file.data.tags with
        | some (some l) => (l.map jsTrim).filter (fun s => s ≠ "")
        | _ => [])
      let tagSlugs := tags.map (fun tag => (tag, slugify tag))
      let htmlContent := addLazyLoadingToImages file.renderedBody
      .ok
        { slug
          title := jsTrim (jsString file.data.title)
          date := t
          isoDate := isoStringOf t
          formattedDate := formatDate t
          category := jsTrim (jsString file.data.category)
          summary := jsTrim (jsString file.data.summary)
          readingTime := jsTrim (jsString file.data.readingTime)
          tags
          tagSlugs
          coverImage := toPublicUrl site (jsString file.data.coverImage)
          coverImageAbsolute := toAbsoluteUrl site (jsString file.data.coverImage)
          url := toPublicUrl site ("/posts/" ++ slug ++ ".html")
          absoluteUrl := toAbsoluteUrl site ("/posts/" ++ slug ++ ".html")
          htmlContent
          plainText := stripHtml htmlContent }

/-- The comparator `(a, b) => b.date - a.date` of `loadPosts`
(`build.js:166`) as a may-precede relation: `a` may stay before `b` iff
the comparator value is not positive. -/
def dateDescLe (a b : Post) : Bool := b.date ≤ a.date

/-- `loadPosts` (`build.js:124`–`167`): keep `.md` files, build posts in
file order, sort descending by date.  `Array.prototype.sort` is stable,
and under a consistent comparator its output is the unique stable sorted
order, modelled here by the stable structural `List.insertionSort`. -/
def loadPosts (site : SiteConfig) (files : List SourceFile) : Except String (List Post) :=
  match (files.filter (fun f => strEndsWith f.name ".md")).mapM (loadOnePost site) with
  | .error e => .error e
  | .ok posts => .ok (List.insertionSort (fun a b => dateDescLe a b = true) posts)

/-! ## findRelatedPosts (`build.js:502`–`529`) -/

/-- Relatedness score (`build.js:510`–`512`): shared tag count plus a
category bonus of 2. -/
def relScore (current post : Post) : Nat :=
  (post.tags.filter (fun tag => current.tags.contains tag)).length +
    (if post.category = current.category then 2 else 0)

/-- A scored candidate (`\x7b post, score \x7d` entries of `scored`). -/
structure ScoredPost where
  post : Post
  score : Nat
deriving Repr, DecidableEq

/-- The comparator
`(a, b) => (b.score !== a.score ? b.score - a.score : b.post.date - a.post.date)`
(`build.js:520`) as a may-precede relation. -/
def scoredLe (a b : ScoredPost) : Bool :=
  if a.score = b.score then b.post.date ≤ a.post.date else b.score ≤ a.score

/-- `findRelatedPosts` (`build.js:502`–`529`). -/
def findRelatedPosts (current : Post) (posts : List Post) : List Post :=
  let scored := posts.filterMap (fun post =>
    if post.slug = current.slug then none
    else
      let score := relScore current post
      if 0 < score then some { post := post, score := score } else none)
  let ordered :=
    ((List.insertionSort (fun a b => scoredLe a b = true) scored).map (·.post)).take 3
  if 0 < ordered.length then ordered
  else (posts.filter (fun post => post.slug ≠ current.slug)).take 3

/-! ## JavaScript objects and the tags map (`build.js:196`–`224`) -/

/-- Whether a string is an ECMAScript array-index property key: the
canonical decimal form of an integer below `2^32 - 1`. -/
def isArrayIndexKey (s : String) : Bool :=
  match s.toList with
  | ['0'] => true
  | c :: cs =>
    isDigitChar c && c ≠ '0' && cs.all isDigitChar &&
      natOfDigits (c :: cs) < 4294967295
  | [] => false

/-- Enumeration order of the string-keyed own properties of a JS object
(ECMAScript `OrdinaryOwnPropertyKeys`): array-index keys first in
ascending numeric order, then the remaining keys in insertion order. -/
def jsObjKeysOrder (keys : List String) : List String :=
  List.insertionSort (fun a b => natOfDigits a.toList ≤ natOfDigits b.toList)
      (keys.filter isArrayIndexKey) ++
    keys.filter (fun k => !isArrayIndexKey k)

/-- Generic first-occurrence key update of an association list, the
meaning of property assignment on an existing key. -/
def setKV {V : Type} : List (String × V) → String → V → List (String × V)
  | [], n, v => [(n, v)]
  | (a, b) :: rest, n, v =>
    if a = n then (a, v) :: rest else (a, b) :: setKV rest n v

/-- A JavaScript object with string keys: key–value pairs in insertion
order, enumerated per `jsObjKeysOrder`. -/
structure JsObj (V : Type) where
  entries : List (String × V)
deriving Repr, DecidableEq

/-- Property read `o[k]`. -/
def JsObj.get? {V : Type} (o : JsObj V) (k : String) : Option V :=
  (o.entries.find? (fun e => e.1 = k)).map (·.2)

/-- Property assignment `o[k] = v`. -/
def JsObj.set {V : Type} (o : JsObj V) (k : String) (v : V) : JsObj V :=
  ⟨setKV o.entries k v⟩

/-- `Object.keys` order. -/
def JsObj.keys {V : Type} (o : JsObj V) : List String :=
  jsObjKeysOrder (o.entries.map (·.1))

/-- `Object.entries` (and `JSON.stringify`) enumeration. -/
def JsObj.entriesInOrder {V : Type} (o : JsObj V) : List (String × V) :=
  o.keys.filterMap (fun k => (o.get? k).map (fun v => (k, v)))

/-- The lightweight post summary pushed per tag (`build.js:205`–`212`). -/
structure TagEntry where
  title : String
  summary : String
  category : String
  date : String
  url : String
  coverImage : String
deriving Repr, DecidableEq

/-- Summary record of a post (`build.js:205`–`212`). -/
def tagEntryOf (post : Post) : TagEntry :=
  { title := post.title
    summary := post.summary
    category := post.category
    date := post.formattedDate
    url := post.url
    coverImage := post.coverImage }

/-- Lexicographic code-point comparison of character lists (may-precede
form). -/
def charListLe : List Char → List Char → Bool
  | [], _ => true
  | _ :: _, [] => false
  | a :: as, b :: bs =>
    if a.toNat < b.toNat then true
    else if b.toNat < a.toNat then false
    else charListLe as bs

/-- Swap the case of an ASCII letter (identity elsewhere).  Code-point
comparison of case-swapped strings realises the ICU tertiary-strength
rule that, at the first position where two primary-equal strings differ
only in case, the lowercase form precedes the uppercase one. -/
def caseFlipChar (c : Char) : Char :=
  if 97 ≤ c.toNat ∧ c.toNat ≤ 122 then Char.ofNat (c.toNat - 32)
  else if 65 ≤ c.toNat ∧ c.toNat ≤ 90 then Char.ofNat (c.toNat + 32)
  else c

/-- `(a, b) => a.localeCompare(b, 'pt-BR')` as a may-precede relation,
modelled for ASCII strings: case-insensitive code-point comparison at
primary strength, and for primary-equal strings the tertiary tie-break
that orders lowercase before uppercase at the first case difference
(realised as code-point comparison of the case-swapped strings).  (ICU
pt-BR collation compares letters case-insensitively at primary strength
and orders digits before letters, as code-point order also does.) -/
def ptBRle (a b : String) : Bool :=
  let la := a.toList.map jsToLowerChar
  let lb := b.toList.map jsToLowerChar
  if la = lb then
    charListLe (a.toList.map caseFlipChar) (b.toList.map caseFlipChar)
  else charListLe la lb

/-- `buildTagsMap` (`build.js:196`–`224`), parametrized by the collator
relation used on keys (`cmpLe a b` iff `a.localeCompare(b, 'pt-BR')` is
not positive; `ptBRle` is the modelled instance).  First loop: push each
post's summary onto each of its tags, creating the list on first sight.
Then a fresh object is filled in sorted key order. -/
def buildTagsMap (cmpLe : String → String → Bool) (posts : List Post) :
    JsObj (List TagEntry) :=
  let tagsMap : JsObj (List TagEntry) := posts.foldl (fun m post =>
    post.tags.foldl (fun m tag =>
      m.set tag (((m.get? tag).getD []) ++ [tagEntryOf post])) m) ⟨[]⟩
  let sortedKeys := List.insertionSort (fun a b => cmpLe a b = true) tagsMap.keys
  sortedKeys.foldl (fun s tag => s.set tag ((tagsMap.get? tag).getD []))
    (⟨[]⟩ : JsObj (List TagEntry))

/-- The accumulation phase of `buildTagsMap` on its own (the `tagsMap`
object after the first loop of `build.js:198`–`214`). -/
def postsTagsMap (posts : List Post) : JsObj (List TagEntry) :=
  posts.foldl (fun m post =>
    post.tags.foldl (fun m tag =>
      m.set tag (((m.get? tag).getD []) ++ [tagEntryOf post])) m) ⟨[]⟩

/-! ## Card, option and feed markup (`build.js:263`–`270`, `467`–`500`,
`594`–`622`) -/

/-- Concatenation of a list of strings (`Array.prototype.join('')`). -/
def concatStrings (l : List String) : String := l.foldr (fun a b => a ++ b) ""

/-- `Object.fromEntries(...)[tag]` lookup on the `tagSlugs` association
list (later entries of `fromEntries` win; a missing key interpolates as
`undefined`). -/
def lookupTagSlug (m : List (String × String)) (tag : String) : String :=
  match (m.reverse.find? (fun e => e.1 = tag)).map (·.2) with
  | some s => s
  | none => "undefined"

/-- The tag-link row of an article card (`build.js:468`–`475`). -/
def tagLinksHtml (site : SiteConfig) (post : Post) : String :=
  concatStrings (post.tags.map (fun tag =>
    "<a class=\x22tag-link\x22 href=\x22" ++
      toPublicUrl site ("/tags/" ++ lookupTagSlug post.tagSlugs tag ++ ".html") ++
      "\x22>#" ++ escapeHtml tag ++ "</a>"))

/-- `renderArticleCard` (`build.js:467`–`490`), with the template
literal's line structure flattened (the whitespace plays no role in the
escaping claims). -/
def renderArticleCard (site : SiteConfig) (post : Post) : String :=
  "\n    <article class=\x22article-card\x22>\n      " ++
    "<img class=\x22card-cover\x22 src=\x22" ++ escapeHtml post.coverImage ++
    "\x22 alt=\x22Capa de " ++ escapeHtml post.title ++
    "\x22 loading=\x22lazy\x22>\n      <div class=\x22card-body\x22>\n        " ++
    "<p class=\x22card-meta\x22>" ++ escapeHtml post.category ++ " · " ++
    escapeHtml post.formattedDate ++ "</p>\n        " ++
    "<h2 class=\x22card-title\x22><a href=\x22" ++ escapeHtml post.url ++ "\x22>" ++
    escapeHtml post.title ++ "</a></h2>\n        " ++
    "<p class=\x22card-summary\x22>" ++ escapeHtml post.summary ++ "</p>\n        " ++
    "<div class=\x22tags-row\x22>" ++ tagLinksHtml site post ++
    "</div>\n      </div>\n    </article>\n  "

/-- One `<option>` of the category/tag filters (`build.js:264`–`270`). -/
def optionHtml (value : String) : String :=
  "<option value=\x22" ++ escapeHtml value ++ "\x22>" ++ escapeHtml value ++ "</option>"

/-- `new Date(post.isoDate).toUTCString()` (`build.js:604`). -/
def jsUtcStringOfIso (s : String) : String :=
  match parseIsoDateTime s with
  | some t => utcStringOf t
  | none => "Invalid Date"

/-- One RSS `<item>` (`build.js:598`–`606`), template-literal line
structure flattened. -/
def rssItemHtml (post : Post) : String :=
  "\n    <item>\n      <title>" ++ escapeXml post.title ++
    "</title>\n      <description>" ++ escapeXml post.summary ++
    "</description>\n      <link>" ++ escapeXml post.absoluteUrl ++
    "</link>\n      <guid>" ++ escapeXml post.absoluteUrl ++
    "</guid>\n      <pubDate>" ++ jsUtcStringOfIso post.isoDate ++
    "</pubDate>\n      <category>" ++ escapeXml post.category ++
    "</category>\n    </item>"

/-! ## Sitemap (`build.js:557`–`583`) and the page list -/

/-- A `pages` record (`build.js:73`–`78`, `418`, `463`).  `lastmod`
carries the date code of the ISO timestamp string (the
`toISOString`/`new Date` round trip in `writeSitemap` preserves the
instant). -/
structure Page where
  file : String
  lastmod : Nat
deriving Repr, DecidableEq

/-- The `seen`-set first-occurrence deduplication loop of `writeSitemap`
(`build.js:558`–`568`). -/
def dedupPages : List Page → List String → List Page
  | [], _ => []
  | p :: ps, seen =>
    if seen.contains p.file then dedupPages ps seen
    else p :: dedupPages ps (p.file :: seen)

/-- The `unique` page list of `writeSitemap`. -/
def sitemapEntries (pages : List Page) : List Page := dedupPages pages []

/-- The serialized `sitemap.xml` content (`build.js:570`–`580`). -/
def sitemapXml (site : SiteConfig) (pages : List Page) : String :=
  "<?xml version=\x221.0\x22 encoding=\x22UTF-8\x22?>\n" ++
    "<urlset xmlns=\x22http://www.sitemaps.org/schemas/sitemap/0.9\x22>\n" ++
    String.intercalate "\n" ((sitemapEntries pages).map (fun page =>
      "  <url>\n    <loc>" ++ escapeXml (toAbsoluteUrl site page.file) ++
        "</loc>\n    <lastmod>" ++ escapeXml (isoStringOf page.lastmod) ++
        "</lastmod>\n  </url>")) ++
    "\n</urlset>"

/-- The `pages` list accumulated during a build: the four static pages
with the build instant (`build.js:73`–`78`), then one entry per post with
its publish time, in collection order (`build.js:418`), then one entry
per tag page with the build instant, in tag-map enumeration order
(`build.js:463`).  The several `new Date()` calls of one build are
modelled as a single build instant. -/
def collectPages (buildTime : Nat) (posts : List Post)
    (tagsMap : JsObj (List TagEntry)) : List Page :=
  [⟨"/index.html", buildTime⟩, ⟨"/blog.html", buildTime⟩,
      ⟨"/projects.html", buildTime⟩, ⟨"/about.html", buildTime⟩] ++
    posts.map (fun post => ⟨"/posts/" ++ post.slug ++ ".html", post.date⟩) ++
    tagsMap.entriesInOrder.map (fun e => ⟨"/tags/" ++ slugify e.1 ++ ".html", buildTime⟩)

/-! ## The build pipeline (`main`, `build.js:67`–`103`) -/

/-- The sequence of output files `main` writes, as output-directory paths
(the recursively copied assets tree abbreviated to one marker), paired
with the fatal error when the build aborts.  `loadPosts` completes before
the first write (`build.js:71` precedes `build.js:80`–`101`), so a
loading failure produces no written files and a nonzero exit
(`build.js:802`–`805`). -/
def mainBuildPaths (site : SiteConfig) (hasAdsFile : Bool) (files : List SourceFile) :
    List String × Option String :=
  match loadPosts site files with
  | .error e => ([], some e)
  | .ok posts =>
    let tagsMap := buildTagsMap ptBRle posts
    (["assets"] ++ (if hasAdsFile then ["ads.txt"] else []) ++
        ["index.html", "blog.html", "projects.html", "about.html"] ++
        posts.map (fun post => "posts/" ++ post.slug ++ ".html") ++
        tagsMap.entriesInOrder.map (fun e => "tags/" ++ slugify e.1 ++ ".html") ++
        ["search-index.json", "tags.json", "sitemap.xml", "robots.txt", "rss.xml"],
      none)

/-! ## Specification-side checkers -/

/-- Per-character expansion equivalent to the five staged replacements of
`escapeHtml` (the replacement texts contain none of the later-stage
pattern characters). -/
def escHtmlChar (c : Char) : List Char :=
  if c = '&' then "&amp;".toList
  else if c = '<' then "&lt;".toList
  else if c = '>' then "&gt;".toList
  else if c = Char.ofNat 34 then "&quot;".toList
  else if c = Char.ofNat 39 then "&#39;".toList
  else [c]

/-- The list-level composition of the five replacement stages of
`escapeHtml`. -/
def escStages (cs : List Char) : List Char :=
  replaceChar (Char.ofNat 39) "&#39;".toList
    (replaceChar (Char.ofNat 34) "&quot;".toList
      (replaceChar '>' "&gt;".toList
        (replaceChar '<' "&lt;".toList
          (replaceChar '&' "&amp;".toList cs))))

/-- Sliding check that every ampersand starts one of the five entities
`&amp;`, `&lt;`, `&gt;`, `&quot;`, `&#39;`. -/
def ampOkList : List Char → Bool
  | [] => true
  | c :: cs =>
    (c ≠ '&' ||
      (startsWithChars cs "amp;".toList || startsWithChars cs "lt;".toList ||
        startsWithChars cs "gt;".toList || startsWithChars cs "quot;".toList ||
        startsWithChars cs "#39;".toList)) &&
      ampOkList cs

/-! ## Concrete build inputs used as test vectors -/

/-- Frontmatter shared by the concrete scenario files. -/
def fmBase : Frontmatter :=
  { title := some "Post P"
    date := some "2026-04-02"
    category := some "Tech"
    summary := some "Resumo P"
    readingTime := some "5 min"
    tags := some (some ["x", "y"])
    coverImage := some "/assets/images/p.png" }

/-- The current post of the spec's related-post example. -/
def filePRel : SourceFile :=
  { name := "post-p.md", data := fmBase, renderedBody := "<p>corpo</p>\n" }

/-- Post A of the example: tags `x`, `y`, category `Tech` (score 4). -/
def fileARel : SourceFile :=
  { name := "post-a.md"
    data := { fmBase with title := some "Post A", date := some "2026-03-05" }
    renderedBody := "<p>a</p>\n" }

/-- Post B of the example: tag `x`, category `Tech` (score 3). -/
def fileBRel : SourceFile :=
  { name := "post-b.md"
    data := { fmBase with
      title := some "Post B"
      date := some "2026-02-14"
      tags := some (some ["x"]) }
    renderedBody := "<p>b</p>\n" }

/-- Post C of the example: an unshared tag and another category
(score 0; the spec's example gives C no tags, but an empty tag list does
not pass validation, so an unshared tag stands in). -/
def fileCRel : SourceFile :=
  { name := "post-c.md"
    data := { fmBase with
      title := some "Post C"
      date := some "2026-01-10"
      category := some "Other"
      tags := some (some ["z"]) }
    renderedBody := "<p>c</p>\n" }

/-- The loaded example collection (dates chosen so that the collection
order is P, A, B, C). -/
def relPosts : List Post :=
  match loadPosts defaultSite [filePRel, fileARel, fileBRel, fileCRel] with
  | .ok ps => ps
  | .error _ => []

/-- Two files with the same publish date. -/
def dupDateFiles : List SourceFile :=
  [{ name := "first.md"
     data := { fmBase with title := some "First", date := some "2026-02-14" }
     renderedBody := "" },
   { name := "second.md"
     data := { fmBase with title := some "Second", date := some "2026-02-14" }
     renderedBody := "" }]

/-- The posts loaded from the equal-date pair. -/
def dupDatePosts : List Post :=
  match loadPosts defaultSite dupDateFiles with
  | .ok ps => ps
  | .error _ => []

/-- A file whose metadata header lacks `summary`. -/
def fileMissingSummary : SourceFile :=
  { name := "sem-resumo.md"
    data := { fmBase with summary := none }
    renderedBody := "" }

/-- A file whose `tags` value is an empty list. -/
def fileEmptyTags : SourceFile :=
  { name := "sem-tags.md"
    data := { fmBase with tags := some (some []) }
    renderedBody := "" }

/-- A file whose name (79 `a`s, then `.b.md`) slugifies, before
truncation, to an 81-character string whose 80th character is a
hyphen. -/
def fileLongName : SourceFile :=
  { name := String.mk (List.replicate 79 'a') ++ ".b.md"
    data := fmBase
    renderedBody := "" }

/-- A file with the purely numeric tags `10` and `9`. -/
def fileNumericTags : SourceFile :=
  { name := "numeric.md"
    data := { fmBase with tags := some (some ["10", "9"]) }
    renderedBody := "" }

/-- The posts loaded from the numeric-tag file. -/
def numericTagPosts : List Post :=
  match loadPosts defaultSite [fileNumericTags] with
  | .ok ps => ps
  | .error _ => []

/-- The collection loaded from the single example file `filePRel`. -/
def singlePosts : List Post :=
  match loadPosts defaultSite [filePRel] with
  | .ok ps => ps
  | .error _ => []

/-! # Theorems -/

theorem replaceChar_append (pat : Char) (rep : List Char) (l1 l2 : List Char) :
    replaceChar pat rep (l1 ++ l2) = replaceChar pat rep l1 ++ replaceChar pat rep l2 := by
  induction l1 with
  | nil => rfl
  | cons c cs ih => simp [replaceChar, ih]

theorem escStages_cons (c : Char) (cs : List Char) :
    escStages (c :: cs) = escHtmlChar c ++ escStages cs := by
  by_cases h1 : c = '&'
  · subst h1
    simp [escStages, escHtmlChar, replaceChar, replaceChar_append]
  by_cases h2 : c = '<'
  · subst h2
    simp [escStages, escHtmlChar, replaceChar, replaceChar_append]
  by_cases h3 : c = '>'
  · subst h3
    simp [escStages, escHtmlChar, replaceChar, replaceChar_append]
  by_cases h4 : c = Char.ofNat 34
  · subst h4
    simp [escStages, escHtmlChar, replaceChar, replaceChar_append]
  by_cases h5 : c = Char.ofNat 39
  · subst h5
    simp [escStages, escHtmlChar, replaceChar, replaceChar_append]
  simp [escStages, escHtmlChar, replaceChar, replaceChar_append, h1, h2, h3, h4, h5]

theorem escapeHtml_flatMap (s : String) :
    (escapeHtml s).toList = s.toList.flatMap escHtmlChar := by
  show escStages s.toList = _
  induction s.toList with
  | nil => rfl
  | cons c cs ih => rw [escStages_cons, List.flatMap_cons, ih]

theorem escHtmlChar_safe (c d : Char) (h : d ∈ escHtmlChar c) :
    d ≠ '<' ∧ d ≠ '>' ∧ d ≠ Char.ofNat 34 ∧ d ≠ Char.ofNat 39 := by
  unfold escHtmlChar at h
  by_cases h1 : c = '&'
  · simp [h1] at h
    rcases h with h | h | h | h | h <;> subst h <;> decide
  by_cases h2 : c = '<'
  · simp [h1, h2] at h
    rcases h with h | h | h | h <;> subst h <;> decide
  by_cases h3 : c = '>'
  · simp [h1, h2, h3] at h
    rcases h with h | h | h | h <;> subst h <;> decide
  by_cases h4 : c = Char.ofNat 34
  · simp [h1, h2, h3, h4] at h
    rcases h with h | h | h | h | h | h <;> subst h <;> decide
  by_cases h5 : c = Char.ofNat 39
  · simp [h1, h2, h3, h4, h5] at h
    rcases h with h | h | h | h | h <;> subst h <;> decide
  simp [h1, h2, h3, h4, h5] at h
  subst h
  exact ⟨h2, h3, h4, h5⟩

theorem ampOk_flatMap (cs : List Char) : ampOkList (cs.flatMap escHtmlChar) = true := by
  induction cs with
  | nil => rfl
  | cons c cs ih =>
    rw [List.flatMap_cons]
    by_cases h1 : c = '&'
    · subst h1
      simp [escHtmlChar, ampOkList, startsWithChars, ih]
    by_cases h2 : c = '<'
    · subst h2
      simp [escHtmlChar, ampOkList, startsWithChars, ih]
    by_cases h3 : c = '>'
    · subst h3
      simp [escHtmlChar, ampOkList, startsWithChars, ih]
    by_cases h4 : c = Char.ofNat 34
    · subst h4
      simp [h1, h2, h3, escHtmlChar, ampOkList, startsWithChars, ih]
    by_cases h5 : c = Char.ofNat 39
    · subst h5
      simp [h1, h2, h3, h4, escHtmlChar, ampOkList, startsWithChars, ih]
    simp [escHtmlChar, h1, h2, h3, h4, h5, ampOkList, ih]

theorem countChar_append (c : Char) (a b : String) :
    countChar c (a ++ b) = countChar c a + countChar c b := by
  simp [countChar, List.count_append]

theorem countChar_escapeHtml_lt (s : String) : countChar '<' (escapeHtml s) = 0 := by
  simp only [countChar]
  rw [List.count_eq_zero]
  intro hmem
  rw [escapeHtml_flatMap] at hmem
  rcases List.mem_flatMap.mp hmem with ⟨d, _, hd⟩
  exact (escHtmlChar_safe d '<' hd).1 rfl

theorem mem_jsTrim (c : Char) (s : String) (h : c ∈ (jsTrim s).toList) :
    c ∈ s.toList := by
  simp only [jsTrim] at h
  have h1 : c ∈ (s.toList.dropWhile jsWs).reverse.dropWhile jsWs := by
    simpa using h
  have h2 := (List.dropWhile_sublist jsWs).subset h1
  rw [List.mem_reverse] at h2
  exact (List.dropWhile_sublist jsWs).subset h2

theorem mem_normalizePath (c : Char) (p : String) (h : c ∈ (normalizePath p).toList) :
    c ∈ p.toList ∨ c = '/' := by
  simp only [normalizePath] at h
  split at h
  · right
    simpa using h
  split at h
  · exact Or.inl (mem_jsTrim c p h)
  · rcases (by simpa using h : c = '/' ∨ c ∈ (jsTrim p).toList) with h' | h'
    · exact Or.inr h'
    · exact Or.inl (mem_jsTrim c p h')

theorem toPublicUrl_no_lt (site : SiteConfig) (p : String)
    (hb : '<' ∉ site.basePath.toList) (hp : '<' ∉ p.toList) :
    '<' ∉ (toPublicUrl site p).toList := by
  unfold toPublicUrl
  split
  · exact hp
  dsimp only
  split
  · decide
  · intro h
    rcases List.mem_append.mp (by simpa using h) with h' | h'
    · exact hb h'
    · rcases mem_normalizePath '<' p h' with h'' | h''
      · exact hp h''
      · exact absurd h'' (by decide)

theorem countChar_eq_zero_iff (c : Char) (s : String) :
    countChar c s = 0 ↔ c ∉ s.toList := by
  simp [countChar, List.count_eq_zero]

theorem countChar_concatStrings (c : Char) (l : List String) :
    countChar c (concatStrings l) = (l.map (countChar c)).sum := by
  induction l with
  | nil => rfl
  | cons a as ih =>
    simp only [concatStrings, List.foldr_cons] at ih ⊢
    simp [countChar_append, ih]

theorem sum_map_const_two {α : Type} (l : List α) :
    (l.map (fun _ => 2)).sum = 2 * l.length := by
  induction l with
  | nil => rfl
  | cons a as ih =>
    simp only [List.map_cons, List.sum_cons, List.length_cons, ih]
    omega

theorem countChar_tagLinks (site : SiteConfig) (post : Post)
    (hb : '<' ∉ site.basePath.toList)
    (hs : ∀ tag ∈ post.tags, '<' ∉ (lookupTagSlug post.tagSlugs tag).toList) :
    countChar '<' (tagLinksHtml site post) = 2 * post.tags.length := by
  unfold tagLinksHtml
  rw [countChar_concatStrings, List.map_map]
  have hmap : ∀ tag ∈ post.tags,
      (countChar '<' ∘ fun tag =>
        "<a class=\x22tag-link\x22 href=\x22" ++
          toPublicUrl site ("/tags/" ++ lookupTagSlug post.tagSlugs tag ++ ".html") ++
          "\x22>#" ++ escapeHtml tag ++ "</a>") tag = 2 := by
    intro tag htag
    simp only [Function.comp]
    rw [countChar_append, countChar_append, countChar_append, countChar_append]
    have hurl : countChar '<'
        (toPublicUrl site ("/tags/" ++ lookupTagSlug post.tagSlugs tag ++ ".html")) = 0 := by
      rw [countChar_eq_zero_iff]
      apply toPublicUrl_no_lt site _ hb
      intro hmem
      rw [show ("/tags/" ++ lookupTagSlug post.tagSlugs tag ++ ".html").toList =
          "/tags/".toList ++ (lookupTagSlug post.tagSlugs tag).toList ++ ".html".toList by
        simp [String.data_append]] at hmem
      rcases List.mem_append.mp hmem with hmem' | hmem'
      · rcases List.mem_append.mp hmem' with h2 | h2
        · exact absurd h2 (by decide)
        · exact hs tag htag h2
      · exact absurd hmem' (by decide)
    rw [hurl, countChar_escapeHtml_lt]
    decide
  rw [List.map_congr_left hmap]
  exact sum_map_const_two post.tags

theorem digitChar_ne_lt (n : Nat) : digitChar n ≠ '<' := by
  have h : n % 10 < 10 := Nat.mod_lt _ (by omega)
  unfold digitChar
  generalize hk : n % 10 = k at h ⊢
  interval_cases k <;> decide

theorem countChar_pad2 (n : Nat) : countChar '<' (pad2 n) = 0 := by
  rw [countChar_eq_zero_iff]
  intro h
  simp [pad2] at h
  rcases h with h | h <;> exact digitChar_ne_lt _ h.symm

theorem countChar_pad4 (n : Nat) : countChar '<' (pad4 n) = 0 := by
  rw [countChar_eq_zero_iff]
  intro h
  simp [pad4] at h
  rcases h with h | h | h | h <;> exact digitChar_ne_lt _ h.symm

theorem countChar_getD_strings (l : List String) (i : Nat)
    (hl : ∀ s ∈ l, countChar '<' s = 0) : countChar '<' (l.getD i "") = 0 := by
  rw [List.getD_eq_getElem?_getD]
  cases h : l[i]? with
  | none =>
    simp only [Option.getD_none]
    decide
  | some s =>
    simp only [Option.getD_some]
    exact hl s (List.getElem?_mem h)

theorem countChar_utcStringOf (t : Nat) : countChar '<' (utcStringOf t) = 0 := by
  unfold utcStringOf
  simp only [countChar_append]
  rw [countChar_pad2, countChar_pad4]
  rw [show countChar '<' (zellerDowName (zellerDow (dateYear t) (dateMonth t) (dateDay t))) = 0
    from countChar_getD_strings _ _ (by intro s hs; fin_cases hs <;> decide)]
  rw [show countChar '<' (enMonthAbbr (dateMonth t)) = 0
    from countChar_getD_strings _ _ (by intro s hs; fin_cases hs <;> decide)]
  decide

theorem countChar_jsUtcStringOfIso (s : String) :
    countChar '<' (jsUtcStringOfIso s) = 0 := by
  unfold jsUtcStringOfIso
  cases parseIsoDateTime s with
  | none => decide
  | some t => exact countChar_utcStringOf t

/-- C10: for every input string, `escapeHtml` (also used as `escapeXml`)
returns a string with no raw `<`, `>`, `"` or `'`, in which every `&`
starts one of the entities `&amp;`, `&lt;`, `&gt;`, `&quot;`, `&#39;`;
and every post-derived field interpolated into card, option and feed
markup passes through it, so those fragments contain exactly the `<` of
their fixed tags (15 plus 2 per tag link for a card, 2 for an option,
14 for a feed item) whatever the field values are. -/
theorem escapeHtml_escapes_and_is_applied :
    (∀ s : String,
      ('<' ∉ (escapeHtml s).toList ∧ '>' ∉ (escapeHtml s).toList ∧
        Char.ofNat 34 ∉ (escapeHtml s).toList ∧ Char.ofNat 39 ∉ (escapeHtml s).toList) ∧
      ampOkList (escapeHtml s).toList = true) ∧
    (∀ (site : SiteConfig) (post : Post), '<' ∉ site.basePath.toList →
      (∀ tag ∈ post.tags, '<' ∉ (lookupTagSlug post.tagSlugs tag).toList) →
      countChar '<' (renderArticleCard site post) = 15 + 2 * post.tags.length) ∧
    (∀ v : String, countChar '<' (optionHtml v) = 2) ∧
    (∀ post : Post, countChar '<' (rssItemHtml post) = 14) := by
  refine ⟨fun s => ⟨⟨?_, ?_, ?_, ?_⟩, ?_⟩, ?_, ?_, ?_⟩
  · intro hmem
    rw [escapeHtml_flatMap] at hmem
    rcases List.mem_flatMap.mp hmem with ⟨d, _, hd⟩
    exact (escHtmlChar_safe d _ hd).1 rfl
  · intro hmem
    rw [escapeHtml_flatMap] at hmem
    rcases List.mem_flatMap.mp hmem with ⟨d, _, hd⟩
    exact (escHtmlChar_safe d _ hd).2.1 rfl
  · intro hmem
    rw [escapeHtml_flatMap] at hmem
    rcases List.mem_flatMap.mp hmem with ⟨d, _, hd⟩
    exact (escHtmlChar_safe d _ hd).2.2.1 rfl
  · intro hmem
    rw [escapeHtml_flatMap] at hmem
    rcases List.mem_flatMap.mp hmem with ⟨d, _, hd⟩
    exact (escHtmlChar_safe d _ hd).2.2.2 rfl
  · rw [escapeHtml_flatMap]
    exact ampOk_flatMap s.toList
  · intro site post hb hs
    have h1 : countChar '<' "\n    <article class=\x22article-card\x22>\n      " = 1 := by
      decide
    have h2 : countChar '<' "<img class=\x22card-cover\x22 src=\x22" = 1 := by decide
    have h3 : countChar '<' "\x22 alt=\x22Capa de " = 0 := by decide
    have h4 : countChar '<'
        "\x22 loading=\x22lazy\x22>\n      <div class=\x22card-body\x22>\n        " = 1 := by
      decide
    have h5 : countChar '<' "<p class=\x22card-meta\x22>" = 1 := by decide
    have h6 : countChar '<' " · " = 0 := by decide
    have h7 : countChar '<' "</p>\n        " = 1 := by decide
    have h8 : countChar '<' "<h2 class=\x22card-title\x22><a href=\x22" = 2 := by decide
    have h9 : countChar '<' "\x22>" = 0 := by decide
    have h10 : countChar '<' "</a></h2>\n        " = 2 := by decide
    have h11 : countChar '<' "<p class=\x22card-summary\x22>" = 1 := by decide
    have h12 : countChar '<' "<div class=\x22tags-row\x22>" = 1 := by decide
    have h13 : countChar '<' "</div>\n      </div>\n    </article>\n  " = 3 := by decide
    unfold renderArticleCard
    simp only [countChar_append, countChar_escapeHtml_lt,
      countChar_tagLinks site post hb hs, h1, h2, h3, h4, h5, h6, h7, h8, h9, h10,
      h11, h12, h13]
    omega
  · intro v
    have h1 : countChar '<' "<option value=\x22" = 1 := by decide
    have h2 : countChar '<' "\x22>" = 0 := by decide
    have h3 : countChar '<' "</option>" = 1 := by decide
    unfold optionHtml
    simp only [countChar_append, countChar_escapeHtml_lt, h1, h2, h3]
  · intro post
    have h1 : countChar '<' "\n    <item>\n      <title>" = 2 := by decide
    have h2 : countChar '<' "</title>\n      <description>" = 2 := by decide
    have h3 : countChar '<' "</description>\n      <link>" = 2 := by decide
    have h4 : countChar '<' "</link>\n      <guid>" = 2 := by decide
    have h5 : countChar '<' "</guid>\n      <pubDate>" = 2 := by decide
    have h6 : countChar '<' "</pubDate>\n      <category>" = 2 := by decide
    have h7 : countChar '<' "</category>\n    </item>" = 2 := by decide
    unfold rssItemHtml
    simp only [countChar_append, escapeXml, countChar_escapeHtml_lt,
      countChar_jsUtcStringOfIso, h1, h2, h3, h4, h5, h6, h7]

/-- Witness for the C10 theorem at a concrete loaded post. -/
theorem escapeHtml_escapes_and_is_applied_witness :
    countChar '<' (renderArticleCard defaultSite (relPosts.getD 0 default)) =
      15 + 2 * (relPosts.getD 0 default).tags.length :=
  escapeHtml_escapes_and_is_applied.2.1 defaultSite (relPosts.getD 0 default)
    (by decide) (by decide)

theorem hyphenate_mem (l : List Char) :
    (∀ c ∈ hyphenateRuns l, isSlugAlnum c = true ∨ c = '-') ∧
      (∀ c ∈ hyphenateSkip l, isSlugAlnum c = true ∨ c = '-') := by
  induction l with
  | nil =>
    constructor <;> intro c hc <;> simp [hyphenateRuns, hyphenateSkip] at hc
  | cons a as ih =>
    constructor
    · intro c hc
      by_cases h : isSlugAlnum a
      · rw [hyphenateRuns, if_pos h] at hc
        rcases List.mem_cons.mp hc with hc | hc
        · exact Or.inl (hc ▸ h)
        · exact ih.1 c hc
      · rw [hyphenateRuns, if_neg h] at hc
        rcases List.mem_cons.mp hc with hc | hc
        · exact Or.inr hc
        · exact ih.2 c hc
    · intro c hc
      by_cases h : isSlugAlnum a
      · rw [hyphenateSkip, if_pos h] at hc
        rcases List.mem_cons.mp hc with hc | hc
        · exact Or.inl (hc ▸ h)
        · exact ih.1 c hc
      · rw [hyphenateSkip, if_neg h] at hc
        exact ih.2 c hc

theorem hyphenate_chain (l : List Char) :
    List.Chain' (fun a b => ¬(a = '-' ∧ b = '-')) (hyphenateRuns l) ∧
      List.Chain' (fun a b => ¬(a = '-' ∧ b = '-')) (hyphenateSkip l) ∧
      (hyphenateSkip l).head? ≠ some '-' := by
  induction l with
  | nil =>
    refine ⟨?_, ?_, ?_⟩ <;> simp [hyphenateRuns, hyphenateSkip]
  | cons a as ih =>
    by_cases h : isSlugAlnum a
    · have ha : a ≠ '-' := by
        intro he
        rw [he] at h
        exact absurd h (by decide)
      refine ⟨?_, ?_, ?_⟩
      · rw [hyphenateRuns, if_pos h, List.chain'_cons']
        exact ⟨fun b _ hb => ha hb.1, ih.1⟩
      · rw [hyphenateSkip, if_pos h, List.chain'_cons']
        exact ⟨fun b _ hb => ha hb.1, ih.1⟩
      · rw [hyphenateSkip, if_pos h]
        simp only [List.head?_cons]
        intro he
        exact ha (Option.some.inj he)
    · refine ⟨?_, ?_, ?_⟩
      · rw [hyphenateRuns, if_neg h, List.chain'_cons']
        refine ⟨fun b hb hcon => ?_, ih.2.1⟩
        rw [Option.mem_def] at hb
        exact ih.2.2 (hcon.2 ▸ hb)
      · rw [hyphenateSkip, if_neg h]
        exact ih.2.1
      · rw [hyphenateSkip, if_neg h]
        exact ih.2.2

theorem head?_dropLast {α : Type} (l : List α) (c : α)
    (h : (l.dropLast).head? = some c) : l.head? = some c := by
  match l with
  | [] => simp at h
  | [a] => simp at h
  | a :: b :: t =>
    rw [List.dropLast_cons₂] at h
    rw [List.head?_cons] at h ⊢
    exact h

theorem getLast?_dropLast_ne (l : List Char)
    (hch : List.Chain' (fun a b => ¬(a = '-' ∧ b = '-')) l)
    (hlast : l.getLast? = some '-') : (l.dropLast).getLast? ≠ some '-' := by
  induction l with
  | nil => simp at hlast
  | cons a t ih =>
    match t, hch with
    | [], _ => simp
    | b :: t', hch =>
      rw [List.getLast?_cons_cons] at hlast
      rw [List.dropLast_cons₂]
      rcases t' with _ | ⟨c, t''⟩
      · have hb : b = '-' := by simpa using hlast
        have hab : ¬(a = '-' ∧ b = '-') := (List.chain'_cons.mp hch).1
        simp only [List.dropLast_single, List.getLast?_singleton]
        intro ha
        exact hab ⟨Option.some.inj ha, hb⟩
      · rw [List.dropLast_cons₂, List.getLast?_cons_cons]
        have := ih (List.Chain'.tail hch) hlast
        rw [List.dropLast_cons₂] at this
        exact this

theorem stripLeadHyphen_subset (l : List Char) (c : Char)
    (h : c ∈ stripLeadHyphen l) : c ∈ l := by
  unfold stripLeadHyphen at h
  split at h
  · split at h
    · simp at h
    · exact List.mem_cons_of_mem _ h
  · exact h

theorem stripLeadHyphen_chain (l : List Char)
    (hch : List.Chain' (fun a b => ¬(a = '-' ∧ b = '-')) l) :
    List.Chain' (fun a b => ¬(a = '-' ∧ b = '-')) (stripLeadHyphen l) := by
  unfold stripLeadHyphen
  split
  · split
    · exact List.chain'_nil
    · exact List.Chain'.tail hch
  · exact hch

theorem stripLeadHyphen_head (l : List Char)
    (hch : List.Chain' (fun a b => ¬(a = '-' ∧ b = '-')) l) :
    (stripLeadHyphen l).head? ≠ some '-' := by
  unfold stripLeadHyphen
  split
  case h_1 rest =>
    split
    · simp
    · rcases rest with _ | ⟨b, t⟩
      · simp
      · have hb : ¬('-' = '-' ∧ b = '-') := (List.chain'_cons.mp hch).1
        simp only [List.head?_cons]
        intro he
        exact hb ⟨rfl, Option.some.inj he⟩
  case h_2 hne =>
    rcases l with _ | ⟨c, t⟩
    · simp
    · simp only [List.head?_cons]
      intro he
      exact hne t (by rw [Option.some.inj he])

theorem stripEdgeHyphens_subset (l : List Char) (c : Char)
    (h : c ∈ stripEdgeHyphens l) : c ∈ l := by
  unfold stripEdgeHyphens at h
  split at h
  · exact stripLeadHyphen_subset l c ((List.dropLast_sublist _).subset h)
  · exact stripLeadHyphen_subset l c h

theorem stripEdgeHyphens_head (l : List Char)
    (hch : List.Chain' (fun a b => ¬(a = '-' ∧ b = '-')) l) :
    (stripEdgeHyphens l).head? ≠ some '-' := by
  unfold stripEdgeHyphens
  split
  · intro h
    exact stripLeadHyphen_head l hch (head?_dropLast _ _ h)
  · exact stripLeadHyphen_head l hch

theorem stripEdgeHyphens_last (l : List Char)
    (hch : List.Chain' (fun a b => ¬(a = '-' ∧ b = '-')) l) :
    (stripEdgeHyphens l).getLast? ≠ some '-' := by
  unfold stripEdgeHyphens
  split
  case isTrue hl => exact getLast?_dropLast_ne _ (stripLeadHyphen_chain l hch) hl
  case isFalse hl => exact hl

theorem mapM_ok_mem {α β : Type} (f : α → Except String β) :
    ∀ (l : List α) (ys : List β), l.mapM f = .ok ys → ∀ y ∈ ys, ∃ x ∈ l, f x = .ok y := by
  intro l
  induction l with
  | nil =>
    intro ys h y hy
    simp only [List.mapM_nil, pure, Except.pure] at h
    cases h
    simp at hy
  | cons a as ih =>
    intro ys h y hy
    rw [List.mapM_cons] at h
    cases hfa : f a with
    | error e =>
      rw [hfa] at h
      simp [Bind.bind, Except.bind] at h
    | ok b =>
      rw [hfa] at h
      cases hrest : as.mapM f with
      | error e =>
        rw [hrest] at h
        simp [Bind.bind, Except.bind] at h
      | ok bs =>
        rw [hrest] at h
        simp only [Bind.bind, Except.bind, pure, Except.pure] at h
        cases h
        rcases List.mem_cons.mp hy with hy | hy
        · exact ⟨a, List.mem_cons_self a as, hy ▸ hfa⟩
        · rcases ih bs hrest y hy with ⟨x, hx, hfx⟩
          exact ⟨x, List.mem_cons_of_mem a hx, hfx⟩

theorem loadOnePost_slug (site : SiteConfig) (f : SourceFile) (p : Post)
    (h : loadOnePost site f = .ok p) : p.slug = slugify (basenameMd f.name) := by
  unfold loadOnePost at h
  split at h
  · exact absurd h (by simp)
  · cases hp : parseIsoDate (jsString f.data.date) with
    | none =>
      simp only [hp] at h
      exact Except.noConfusion h
    | some t =>
      simp only [hp] at h
      cases h
      rfl

theorem slug_core_shape (l : List Char) :
    (∀ c ∈ (stripEdgeHyphens (hyphenateRuns l)).take 80,
      isSlugAlnum c = true ∨ c = '-') ∧
    ((stripEdgeHyphens (hyphenateRuns l)).take 80).head? ≠ some '-' ∧
    ((stripEdgeHyphens (hyphenateRuns l)).take 80).length ≤ 80 ∧
    (((stripEdgeHyphens (hyphenateRuns l)).take 80).length < 80 →
      ((stripEdgeHyphens (hyphenateRuns l)).take 80).getLast? ≠ some '-') := by
  have hch := (hyphenate_chain l).1
  refine ⟨?_, ?_, ?_, ?_⟩
  · intro c hc
    exact (hyphenate_mem l).1 c
      (stripEdgeHyphens_subset _ c ((List.take_sublist _ _).subset hc))
  · have hh := stripEdgeHyphens_head _ hch
    cases hE : stripEdgeHyphens (hyphenateRuns l) with
    | nil => simp
    | cons c cs =>
      rw [hE] at hh
      rw [show (80 : Nat) = 79 + 1 from rfl, List.take_succ_cons]
      simpa using hh
  · rw [List.length_take]
    exact Nat.min_le_left _ _
  · intro hlen
    rw [List.length_take] at hlen
    have hE80 : (stripEdgeHyphens (hyphenateRuns l)).length ≤ 80 := by omega
    rw [List.take_of_length_le hE80]
    exact stripEdgeHyphens_last _ hch

/-- C6 (amended): every loaded post's slug is `slugify` of its file name
without the `.md` extension, and every `slugify` result contains only
`a`–`z`, `0`–`9` and hyphens, has no leading hyphen and at most 80
characters, and has no trailing hyphen unless the 80-character truncation
cut the slug exactly at a hyphen (which an over-long file name can
force). -/
theorem slugify_slug_shape :
    (∀ s : String,
      (∀ c ∈ (slugify s).toList, isSlugAlnum c = true ∨ c = '-') ∧
      (slugify s).toList.head? ≠ some '-' ∧
      (slugify s).toList.length ≤ 80 ∧
      ((slugify s).toList.length < 80 → (slugify s).toList.getLast? ≠ some '-')) ∧
    (∀ (site : SiteConfig) (files : List SourceFile) (posts : List Post),
      loadPosts site files = .ok posts → ∀ p ∈ posts,
        ∃ f ∈ files, p.slug = slugify (basenameMd f.name)) := by
  constructor
  · intro s
    exact slug_core_shape
      (((s.toList.flatMap nfdChar).filter (fun c => !isCombiningMark c)).map
        jsToLowerChar)
  · intro site files posts h p hp
    unfold loadPosts at h
    cases hmap : (files.filter (fun f => strEndsWith f.name ".md")).mapM
        (loadOnePost site) with
    | error e =>
      rw [hmap] at h
      exact Except.noConfusion h
    | ok ys =>
      rw [hmap] at h
      cases h
      have hyp : p ∈ ys :=
        (List.perm_insertionSort (fun a b => dateDescLe a b = true) ys).subset hp
      rcases mapM_ok_mem (loadOnePost site) _ ys hmap p hyp with ⟨f, hf, hload⟩
      exact ⟨f, (List.mem_filter.mp hf).1, loadOnePost_slug site f p hload⟩

/-- C6 counterexample: a valid post file with an over-long name loads to
a slug whose 80th and final character is a hyphen, contradicting the
claim that slugs never end in a hyphen. -/
theorem slugify_trailing_hyphen_counterexample :
    (loadPosts defaultSite [fileLongName]).map (fun ps => ps.map (fun p => p.slug)) =
      .ok [String.mk (List.replicate 79 'a' ++ ['-'])] ∧
    (String.mk (List.replicate 79 'a' ++ ['-'])).toList.getLast? = some '-' := by
  exact ⟨by rfl, by decide⟩

/-- Witness for the C6 theorem on a concrete name and a concrete loaded
file. -/
theorem slugify_slug_shape_witness :
    (∀ c ∈ (slugify "Guia de IA: parte 1").toList, isSlugAlnum c = true ∨ c = '-') ∧
    ∃ f ∈ [filePRel], (singlePosts.getD 0 default).slug = slugify (basenameMd f.name) :=
  ⟨(slugify_slug_shape.1 "Guia de IA: parte 1").1,
    slugify_slug_shape.2 defaultSite [filePRel] singlePosts (by rfl)
      (singlePosts.getD 0 default) (by decide)⟩

/-- C2 (amended): the loaded post collection is sorted in weakly
descending publish-date order (adjacent posts satisfy `≥`; equal dates
are possible, so the order is not strict). -/
theorem loadPosts_sorted_desc (site : SiteConfig) (files : List SourceFile)
    (posts : List Post) (h : loadPosts site files = .ok posts) :
    posts.Pairwise (fun a b => b.date ≤ a.date) := by
  unfold loadPosts at h
  cases hmap : (files.filter (fun f => strEndsWith f.name ".md")).mapM
      (loadOnePost site) with
  | error e =>
    rw [hmap] at h
    exact Except.noConfusion h
  | ok ys =>
    rw [hmap] at h
    cases h
    haveI hTot : IsTotal Post (fun a b => dateDescLe a b = true) := by
      constructor
      intro a b
      simp only [dateDescLe, decide_eq_true_eq]
      omega
    haveI hTrans : IsTrans Post (fun a b => dateDescLe a b = true) := by
      constructor
      intro a b c
      simp only [dateDescLe, decide_eq_true_eq]
      omega
    have hs := List.sorted_insertionSort (r := fun a b => dateDescLe a b = true) ys
    exact hs.imp (by
      intro a b hab
      simpa [dateDescLe, decide_eq_true_eq] using hab)

/-- C2 counterexample: two valid files with the same publish date load
successfully, and the resulting collection is not strictly descending by
date. -/
theorem loadPosts_not_strict_counterexample :
    loadPosts defaultSite dupDateFiles = .ok dupDatePosts ∧
    dupDatePosts.length = 2 ∧
    (dupDatePosts.getD 0 default).date = (dupDatePosts.getD 1 default).date ∧
    ¬ dupDatePosts.Chain' (fun a b => b.date < a.date) := by
  refine ⟨by rfl, by decide, by decide, ?_⟩
  intro hch
  rw [show dupDatePosts = [dupDatePosts.getD 0 default, dupDatePosts.getD 1 default]
    from rfl] at hch
  exact absurd (List.chain'_cons.mp hch).1 (by decide)

/-- Witness for the C2 theorem on the concrete example collection. -/
theorem loadPosts_sorted_desc_witness :
    relPosts.Pairwise (fun a b => b.date ≤ a.date) :=
  loadPosts_sorted_desc defaultSite [filePRel, fileARel, fileBRel, fileCRel] relPosts
    (by rfl)

theorem loadOnePost_error (site : SiteConfig) (f : SourceFile) (e : String)
    (h : validateFrontmatter f.name f.data = .error e) :
    loadOnePost site f = .error e := by
  unfold loadOnePost
  rw [h]

theorem mapM_error_of_mem {α β : Type} (f : α → Except String β) :
    ∀ l : List α, (∃ x ∈ l, ∃ e, f x = .error e) →
      ∃ msg, l.mapM f = .error msg := by
  intro l
  induction l with
  | nil =>
    rintro ⟨x, hx, _⟩
    simp at hx
  | cons a as ih =>
    rintro ⟨x, hx, e, hfx⟩
    rw [List.mapM_cons]
    cases hfa : f a with
    | error ea =>
      exact ⟨ea, rfl⟩
    | ok b =>
      have hxas : x ∈ as := by
        rcases List.mem_cons.mp hx with hx' | hx'
        · rw [hx', hfa] at hfx
          exact Except.noConfusion hfx
        · exact hx'
      rcases ih ⟨x, hxas, e, hfx⟩ with ⟨msg, hmsg⟩
      refine ⟨msg, ?_⟩
      show (as.mapM f >>= fun xs => pure (b :: xs)) = Except.error msg
      rw [hmsg]
      rfl

/-- C3: a post file with missing required metadata fields fails
validation with an error naming the file and exactly the missing fields
(in the fixed field order); a present-but-empty or non-list `tags` value
fails with an error naming the file; a failing `.md` file anywhere in
the input makes `loadPosts` fail, and a `loadPosts` failure makes the
build produce the error and zero written output files. -/
theorem frontmatter_validation_aborts :
    (∀ (name : String) (data : Frontmatter), missingFields data ≠ [] →
      validateFrontmatter name data =
        .error (name ++ " está sem os campos obrigatórios: " ++
          String.intercalate ", " (missingFields data))) ∧
    (∀ (name : String) (data : Frontmatter), missingFields data = [] →
      tagsNonEmptyList data = false →
      validateFrontmatter name data =
        .error (name ++ " deve ter ao menos uma tag em \x22tags\x22.")) ∧
    (∀ (data : Frontmatter) (f : String),
      f ∈ missingFields data ↔
        f ∈ REQUIRED_FRONTMATTER_FIELDS ∧ data.hasField f = false) ∧
    (∀ (site : SiteConfig) (ads : Bool) (files : List SourceFile) (msg : String),
      loadPosts site files = .error msg →
      mainBuildPaths site ads files = ([], some msg)) ∧
    (∀ (site : SiteConfig) (files : List SourceFile) (f : SourceFile),
      f ∈ files → strEndsWith f.name ".md" = true →
      (missingFields f.data ≠ [] ∨ tagsNonEmptyList f.data = false) →
      ∃ msg, loadPosts site files = .error msg) := by
  have hv1 : ∀ (name : String) (data : Frontmatter), missingFields data ≠ [] →
      validateFrontmatter name data =
        .error (name ++ " está sem os campos obrigatórios: " ++
          String.intercalate ", " (missingFields data)) := by
    intro name data h
    unfold validateFrontmatter
    rw [if_pos (by simpa [List.length_pos] using h)]
  have hv2 : ∀ (name : String) (data : Frontmatter), missingFields data = [] →
      tagsNonEmptyList data = false →
      validateFrontmatter name data =
        .error (name ++ " deve ter ao menos uma tag em \x22tags\x22.") := by
    intro name data h1 h2
    unfold validateFrontmatter
    rw [if_neg (by simp [h1]), if_pos (by simp [h2])]
  refine ⟨hv1, hv2, ?_, ?_, ?_⟩
  · intro data f
    simp [missingFields, List.mem_filter]
  · intro site ads files msg h
    unfold mainBuildPaths
    rw [h]
  · intro site files f hf hmd hbad
    have hfilter : f ∈ files.filter (fun f => strEndsWith f.name ".md") :=
      List.mem_filter.mpr ⟨hf, hmd⟩
    have herr : ∃ e, loadOnePost site f = .error e := by
      rcases hbad with hbad | hbad
      · exact ⟨_, loadOnePost_error site f _ (hv1 f.name f.data hbad)⟩
      · by_cases hmiss : missingFields f.data = []
        · exact ⟨_, loadOnePost_error site f _ (hv2 f.name f.data hmiss hbad)⟩
        · exact ⟨_, loadOnePost_error site f _ (hv1 f.name f.data hmiss)⟩
    rcases mapM_error_of_mem (loadOnePost site) _ ⟨f, hfilter, herr⟩ with ⟨msg, hmsg⟩
    refine ⟨msg, ?_⟩
    unfold loadPosts
    rw [hmsg]

/-- Witness for the C3 theorem on concrete invalid files. -/
theorem frontmatter_validation_aborts_witness :
    validateFrontmatter "sem-resumo.md" fileMissingSummary.data =
      .error "sem-resumo.md está sem os campos obrigatórios: summary" ∧
    mainBuildPaths defaultSite false [fileMissingSummary] =
      ([], some "sem-resumo.md está sem os campos obrigatórios: summary") ∧
    ∃ msg, loadPosts defaultSite [fileEmptyTags] = .error msg := by
  refine ⟨?_, ?_, ?_⟩
  · exact (frontmatter_validation_aborts.1 "sem-resumo.md" fileMissingSummary.data
      (by decide)).trans rfl
  · exact frontmatter_validation_aborts.2.2.2.1 defaultSite false [fileMissingSummary] _
      (by rfl)
  · exact frontmatter_validation_aborts.2.2.2.2 defaultSite [fileEmptyTags] fileEmptyTags
      (by decide) (by decide) (Or.inr (by decide))

theorem matchPlaceholder_some (cs : List Char) (n : String) (raw rest : List Char)
    (h : matchPlaceholder cs = some (n, raw, rest)) :
    raw ++ rest = cs ∧
    ∃ ws1 ws2,
      raw = lbrace :: lbrace :: (ws1 ++ n.toList ++ ws2 ++ [rbrace, rbrace]) ∧
      ws1.all jsWs = true ∧ ws2.all jsWs = true ∧
      n.toList.all isNameChar = true ∧ n.toList ≠ [] := by
  rcases cs with _ | ⟨c1, _ | ⟨c2, rest0⟩⟩
  · simp [matchPlaceholder] at h
  · simp [matchPlaceholder] at h
  simp only [matchPlaceholder] at h
  split at h
  case isFalse => exact absurd h (by simp)
  case isTrue hbr =>
    have hc1 : c1 = lbrace := by
      have := (Bool.and_eq_true _ _).mp hbr
      exact of_decide_eq_true this.1
    have hc2 : c2 = lbrace := by
      have := (Bool.and_eq_true _ _).mp hbr
      exact of_decide_eq_true this.2
    subst hc1
    subst hc2
    split at h
    case h_1 => exact absurd h (by simp)
    case h_3 hne hshape => exact absurd h (by simp)
    case h_2 a name' d1 d2 rest2 hname hafter =>
      split at h
      case isFalse => exact absurd h (by simp)
      case isTrue hbr2 =>
        have hd1 : d1 = rbrace := by
          have := (Bool.and_eq_true _ _).mp hbr2
          exact of_decide_eq_true this.1
        have hd2 : d2 = rbrace := by
          have := (Bool.and_eq_true _ _).mp hbr2
          exact of_decide_eq_true this.2
        subst hd1
        subst hd2
        rw [Option.some.injEq, Prod.mk.injEq, Prod.mk.injEq] at h
        obtain ⟨hn, hraw, hrest⟩ := h
        subst hrest
        have hnl : n.toList = List.takeWhile isNameChar (List.dropWhile jsWs rest0) := by
          rw [← hn]
          rfl
        have e1 : List.takeWhile jsWs rest0 ++ List.dropWhile jsWs rest0 = rest0 :=
          List.takeWhile_append_dropWhile _ _
        have e2 : (List.dropWhile jsWs rest0).takeWhile isNameChar ++
            (List.dropWhile jsWs rest0).dropWhile isNameChar =
            List.dropWhile jsWs rest0 :=
          List.takeWhile_append_dropWhile _ _
        have e3 : ((List.dropWhile jsWs rest0).dropWhile isNameChar).takeWhile jsWs ++
            ((List.dropWhile jsWs rest0).dropWhile isNameChar).dropWhile jsWs =
            (List.dropWhile jsWs rest0).dropWhile isNameChar :=
          List.takeWhile_append_dropWhile _ _
        refine ⟨?_, rest0.takeWhile jsWs,
          ((rest0.dropWhile jsWs).dropWhile isNameChar).takeWhile jsWs, ?_, ?_, ?_, ?_, ?_⟩
        · rw [← hraw]
          simp only [List.cons_append, List.append_assoc, List.nil_append, List.cons.injEq,
            true_and]
          rw [← hname]
          rw [show ((List.dropWhile jsWs rest0).dropWhile isNameChar).takeWhile jsWs ++
              ((List.dropWhile jsWs rest0).dropWhile isNameChar).dropWhile jsWs =
              (List.dropWhile jsWs rest0).dropWhile isNameChar from e3]
          rw [show (List.dropWhile jsWs rest0).takeWhile isNameChar ++
              (List.dropWhile jsWs rest0).dropWhile isNameChar =
              List.dropWhile jsWs rest0 from e2]
          exact e1
        · rw [← hraw, hnl]
          simp [List.append_assoc]
        · exact List.all_eq_true.mpr fun x hx => List.mem_takeWhile_imp hx
        · exact List.all_eq_true.mpr fun x hx => List.mem_takeWhile_imp hx
        · rw [hnl]
          exact List.all_eq_true.mpr fun x hx => List.mem_takeWhile_imp hx
        · rw [hnl]
          intro hnil
          exact hafter hnil

theorem matchPlaceholder_rest_lt (cs : List Char) (n : String) (raw rest : List Char)
    (h : matchPlaceholder cs = some (n, raw, rest)) : rest.length < cs.length := by
  obtain ⟨hsplit, ws1, ws2, hraw, _⟩ := matchPlaceholder_some cs n raw rest h
  have hlen : raw.length + rest.length = cs.length := by
    rw [← hsplit, List.length_append]
  have hpos : 0 < raw.length := by
    rw [hraw]
    simp
  omega

theorem segParse_spec (params : String → Option String) :
    ∀ (fuel : Nat) (cs : List Char), cs.length ≤ fuel →
      renderScan params fuel cs = segRender params (segParse fuel cs) ∧
      segSource (segParse fuel cs) = cs := by
  intro fuel
  induction fuel with
  | zero =>
    intro cs h
    have hc : cs = [] := List.eq_nil_of_length_eq_zero (Nat.le_zero.mp h)
    subst hc
    exact ⟨rfl, rfl⟩
  | succ fuel ih =>
    intro cs h
    cases cs with
    | nil => exact ⟨rfl, rfl⟩
    | cons c cs' =>
      cases hm : matchPlaceholder (c :: cs') with
      | none =>
        have hlen : cs'.length ≤ fuel := by
          simp only [List.length_cons] at h
          omega
        obtain ⟨ih1, ih2⟩ := ih cs' hlen
        constructor
        · simp only [renderScan, segParse, hm]
          exact congrArg (List.cons c) ih1
        · simp only [segParse, hm]
          exact congrArg (List.cons c) ih2
      | some val =>
        obtain ⟨n, raw, rest⟩ := val
        have hlt := matchPlaceholder_rest_lt _ _ _ _ hm
        have hlen : rest.length ≤ fuel := by
          simp only [List.length_cons] at h hlt
          omega
        obtain ⟨ih1, ih2⟩ := ih rest hlen
        obtain ⟨hsplit, _⟩ := matchPlaceholder_some _ _ _ _ hm
        constructor
        · simp only [renderScan, segParse, hm]
          exact congrArg ((jsSubstValue (params n)).toList ++ ·) ih1
        · simp only [segParse, hm]
          exact (congrArg (raw ++ ·) ih2).trans hsplit

theorem segParse_ph_shape :
    ∀ (fuel : Nat) (cs : List Char) (name : String) (raw : List Char),
      TemplateSeg.ph name raw ∈ segParse fuel cs →
      ∃ ws1 ws2,
        raw = lbrace :: lbrace :: (ws1 ++ name.toList ++ ws2 ++ [rbrace, rbrace]) ∧
        ws1.all jsWs = true ∧ ws2.all jsWs = true ∧
        name.toList.all isNameChar = true ∧ name.toList ≠ [] := by
  intro fuel
  induction fuel with
  | zero =>
    intro cs name raw h
    simp [segParse] at h
  | succ fuel ih =>
    intro cs name raw h
    cases cs with
    | nil => simp [segParse] at h
    | cons c cs' =>
      cases hm : matchPlaceholder (c :: cs') with
      | none =>
        simp only [segParse, hm] at h
        rcases List.mem_cons.mp h with h' | h'
        · exact absurd h' (by simp)
        · exact ih _ _ _ h'
      | some val =>
        obtain ⟨n2, raw2, rest2⟩ := val
        simp only [segParse, hm] at h
        rcases List.mem_cons.mp h with h' | h'
        · obtain ⟨hn, hraw⟩ := TemplateSeg.ph.inj h'
          obtain ⟨_, ws1, ws2, hshape, hws1, hws2, hname, hnil⟩ :=
            matchPlaceholder_some _ _ _ _ hm
          subst hn
          subst hraw
          exact ⟨ws1, ws2, hshape, hws1, hws2, hname, hnil⟩
        · exact ih _ _ _ h'

/-- C4: rendering a template substitutes, for every placeholder
occurrence, the mapped value (empty string when the name is unmapped or
maps to a null-like value) and passes all text outside placeholders
through unchanged: the template decomposes into literal characters and
well-formed placeholder occurrences whose concatenation restores the
template, and the rendering is the same decomposition with each
placeholder replaced by its value. -/
theorem renderTemplate_spec (t : String) (params : String → Option String) :
    (renderTemplate t params).toList = segRender params (templateSegs t) ∧
    segSource (templateSegs t) = t.toList ∧
    (∀ name raw, TemplateSeg.ph name raw ∈ templateSegs t →
      ∃ ws1 ws2,
        raw = lbrace :: lbrace :: (ws1 ++ name.toList ++ ws2 ++ [rbrace, rbrace]) ∧
        ws1.all jsWs = true ∧ ws2.all jsWs = true ∧
        name.toList.all isNameChar = true ∧ name.toList ≠ []) := by
  refine ⟨?_, ?_, ?_⟩
  · exact (segParse_spec params t.toList.length t.toList le_rfl).1
  · exact (segParse_spec params t.toList.length t.toList le_rfl).2
  · intro name raw h
    exact segParse_ph_shape _ _ name raw h

/-- Witness for the C4 theorem on a concrete template and mapping. -/
theorem renderTemplate_spec_witness :
    renderTemplate "a \x7b\x7b t \x7d\x7d b \x7b\x7bu\x7d\x7d c"
        (fun k => if k = "t" then some "X" else none) = "a X b  c" ∧
    (renderTemplate "a \x7b\x7b t \x7d\x7d b \x7b\x7bu\x7d\x7d c"
        (fun k => if k = "t" then some "X" else none)).toList =
      segRender (fun k => if k = "t" then some "X" else none)
        (templateSegs "a \x7b\x7b t \x7d\x7d b \x7b\x7bu\x7d\x7d c") :=
  ⟨by decide,
    (renderTemplate_spec "a \x7b\x7b t \x7d\x7d b \x7b\x7bu\x7d\x7d c"
      (fun k => if k = "t" then some "X" else none)).1⟩

theorem relScored_map (current : Post) (posts : List Post) :
    (posts.filterMap (fun post =>
      if post.slug = current.slug then none
      else
        let score := relScore current post
        if 0 < score then some { post := post, score := score } else none)).map
        (fun x : ScoredPost => x.post) =
      (posts.filter (fun p => p.slug ≠ current.slug)).filter
        (fun p => 0 < relScore current p) := by
  induction posts with
  | nil => rfl
  | cons p ps ih =>
    by_cases h1 : p.slug = current.slug
    · simp only [List.filterMap_cons, List.filter_cons, h1]
      simpa [h1] using ih
    · by_cases h2 : 0 < relScore current p
      · simp only [List.filterMap_cons, List.filter_cons]
        simpa [h1, h2] using ih
      · simp only [List.filterMap_cons, List.filter_cons]
        simpa [h1, h2] using ih

theorem relScored_score (current : Post) (posts : List Post) (x : ScoredPost)
    (hx : x ∈ posts.filterMap (fun post =>
      if post.slug = current.slug then none
      else
        let score := relScore current post
        if 0 < score then some { post := post, score := score } else none)) :
    x.score = relScore current x.post := by
  rcases List.mem_filterMap.mp hx with ⟨a, _, hfa⟩
  by_cases h1 : a.slug = current.slug
  · simp [h1] at hfa
  · by_cases h2 : 0 < relScore current a
    · simp only [h1, if_false, if_pos h2] at hfa
      cases hfa
      rfl
    · simp [h1, h2] at hfa

/-- C1 (amended): when at least one other post has a positive score, the
related posts are the first three of the positive-score candidates
arranged in descending score order with ties broken by descending
publish date — the returned posts therefore dominate every excluded
candidate under that order; only when no other post scores above zero
are the first 3 other posts (the most recent, in collection order)
returned instead.  A zero-score post is thus included exactly when no
positive-score post exists, not merely when fewer than 3 exist. -/
theorem findRelatedPosts_spec (current : Post) (posts : List Post) :
    ((posts.filter (fun p => p.slug ≠ current.slug)).filter
        (fun p => 0 < relScore current p) = [] →
      findRelatedPosts current posts =
        (posts.filter (fun p => p.slug ≠ current.slug)).take 3) ∧
    ((posts.filter (fun p => p.slug ≠ current.slug)).filter
        (fun p => 0 < relScore current p) ≠ [] →
      ∃ l : List ScoredPost,
        (∀ x ∈ l, x.score = relScore current x.post) ∧
        List.Perm (l.map (fun x : ScoredPost => x.post))
          ((posts.filter (fun p => p.slug ≠ current.slug)).filter
            (fun p => 0 < relScore current p)) ∧
        l.Pairwise (fun x y =>
          y.score < x.score ∨ (x.score = y.score ∧ y.post.date ≤ x.post.date)) ∧
        findRelatedPosts current posts = (l.map (fun x : ScoredPost => x.post)).take 3) := by
  haveI hTot : IsTotal ScoredPost (fun a b => scoredLe a b = true) := by
    constructor
    intro a b
    by_cases h : a.score = b.score
    · have h' : b.score = a.score := h.symm
      simp only [scoredLe, if_pos h, if_pos h', decide_eq_true_eq]
      omega
    · have h' : ¬ b.score = a.score := fun e => h e.symm
      simp only [scoredLe, if_neg h, if_neg h', decide_eq_true_eq]
      omega
  haveI hTrans : IsTrans ScoredPost (fun a b => scoredLe a b = true) := by
    constructor
    intro a b c hab hbc
    simp only [scoredLe] at hab hbc ⊢
    split_ifs at hab hbc ⊢ <;> simp only [decide_eq_true_eq] at * <;> omega
  have hmap := relScored_map current posts
  constructor
  · intro hpos
    have hsc : posts.filterMap (fun post =>
        if post.slug = current.slug then none
        else
          let score := relScore current post
          if 0 < score then some (⟨post, score⟩ : ScoredPost) else none) = [] :=
      List.map_eq_nil_iff.mp (hmap.trans hpos)
    simp only [findRelatedPosts]
    rw [hsc]
    rfl
  · intro hpos
    have hslen : (posts.filterMap (fun post =>
        if post.slug = current.slug then none
        else
          let score := relScore current post
          if 0 < score then some (⟨post, score⟩ : ScoredPost) else none)).length =
        ((posts.filter (fun p => p.slug ≠ current.slug)).filter
          (fun p => 0 < relScore current p)).length := by
      have := congrArg List.length hmap
      simpa using this
    have hplen : 0 < ((posts.filter (fun p => p.slug ≠ current.slug)).filter
        (fun p => 0 < relScore current p)).length := List.length_pos.mpr hpos
    have hres : findRelatedPosts current posts =
        ((List.insertionSort (fun a b => scoredLe a b = true)
          (posts.filterMap (fun post =>
            if post.slug = current.slug then none
            else
              let score := relScore current post
              if 0 < score then some (⟨post, score⟩ : ScoredPost)
              else none))).map (fun x : ScoredPost => x.post)).take 3 := by
      simp only [findRelatedPosts]
      rw [if_pos]
      simp only [List.length_take, List.length_map, List.length_insertionSort, hslen]
      omega
    have hperm := List.perm_insertionSort (fun a b => scoredLe a b = true)
      (posts.filterMap (fun post =>
        if post.slug = current.slug then none
        else
          let score := relScore current post
          if 0 < score then some (⟨post, score⟩ : ScoredPost) else none))
    refine ⟨List.insertionSort (fun a b => scoredLe a b = true)
      (posts.filterMap (fun post =>
        if post.slug = current.slug then none
        else
          let score := relScore current post
          if 0 < score then some (⟨post, score⟩ : ScoredPost) else none)), ?_, ?_, ?_, hres⟩
    · intro x hx
      exact relScored_score current posts x (hperm.subset hx)
    · exact hmap ▸ (hperm.map (fun x : ScoredPost => x.post))
    · refine (List.sorted_insertionSort _ _).imp ?_
      intro a b hr
      by_cases h : a.score = b.score
      · rw [scoredLe, if_pos h, decide_eq_true_eq] at hr
        exact Or.inr ⟨h, hr⟩
      · rw [scoredLe, if_neg h, decide_eq_true_eq] at hr
        exact Or.inl (by omega)

/-- C1 counterexample: in the loaded example collection the current post
has two positive-score candidates (fewer than 3) and one zero-score
other post, and the zero-score post is not included. -/
theorem findRelatedPosts_zero_score_counterexample :
    relPosts.map (fun p => p.slug) = ["post-p", "post-a", "post-b", "post-c"] ∧
    (findRelatedPosts (relPosts.getD 0 default) relPosts).map (fun p => p.slug) =
      ["post-a", "post-b"] ∧
    relScore (relPosts.getD 0 default) (relPosts.getD 3 default) = 0 ∧
    ((relPosts.filter (fun p => p.slug ≠ (relPosts.getD 0 default).slug)).filter
      (fun p => 0 < relScore (relPosts.getD 0 default) p)).length = 2 := by
  exact ⟨by rfl, by rfl, by rfl, by rfl⟩

/-- Witness for the C1 theorem on the loaded example collection. -/
theorem findRelatedPosts_spec_witness :
    ((relPosts.filter (fun p => p.slug ≠ (relPosts.getD 0 default).slug)).filter
        (fun p => 0 < relScore (relPosts.getD 0 default) p) ≠ []) ∧
    (∃ l : List ScoredPost,
        (∀ x ∈ l, x.score = relScore (relPosts.getD 0 default) x.post) ∧
        List.Perm (l.map (fun x : ScoredPost => x.post))
          ((relPosts.filter (fun p => p.slug ≠ (relPosts.getD 0 default).slug)).filter
            (fun p => 0 < relScore (relPosts.getD 0 default) p)) ∧
        l.Pairwise (fun x y =>
          y.score < x.score ∨ (x.score = y.score ∧ y.post.date ≤ x.post.date)) ∧
        findRelatedPosts (relPosts.getD 0 default) relPosts =
          (l.map (fun x : ScoredPost => x.post)).take 3) :=
  ⟨by decide, (findRelatedPosts_spec (relPosts.getD 0 default) relPosts).2 (by decide)⟩

theorem setFirstAttr_get_same (attrs : List (String × String)) (n v : String) :
    ((LinkToken.mk (setFirstAttr attrs n v)).attrGet n) = some v := by
  induction attrs with
  | nil => simp [setFirstAttr, LinkToken.attrGet]
  | cons a rest ih =>
    obtain ⟨k, w⟩ := a
    by_cases h : k = n
    · simp [setFirstAttr, h, LinkToken.attrGet, List.find?]
    · simp only [setFirstAttr, if_neg h]
      simp only [LinkToken.attrGet, List.find?] at ih ⊢
      simp [h, ih]

theorem setFirstAttr_get_other (attrs : List (String × String)) (n v m : String)
    (hm : m ≠ n) :
    ((LinkToken.mk (setFirstAttr attrs n v)).attrGet m) =
      (LinkToken.mk attrs).attrGet m := by
  induction attrs with
  | nil => simp [setFirstAttr, LinkToken.attrGet, List.find?, Ne.symm hm]
  | cons a rest ih =>
    obtain ⟨k, w⟩ := a
    by_cases h : k = n
    · subst h
      simp only [setFirstAttr, if_pos rfl]
      simp [LinkToken.attrGet, List.find?, Ne.symm hm]
    · simp only [setFirstAttr, if_neg h]
      by_cases h2 : k = m
      · simp [LinkToken.attrGet, List.find?, h2]
      · simp only [LinkToken.attrGet, List.find?] at ih ⊢
        simp [h2, ih]

theorem schemeSplit_shape (s : String) (sch rest : String)
    (h : schemeSplit s = some (sch, rest)) :
    ∃ c cs, s.toList = c :: cs ∧ isAsciiAlpha c = true := by
  unfold schemeSplit at h
  split at h
  · exact absurd h (by simp)
  case h_2 c cs heq =>
    split at h
    case isTrue hc =>
      exact ⟨c, cs, heq, hc⟩
    case isFalse => exact absurd h (by simp)

theorem linkOpen_unmodified (site : SiteConfig) (t : LinkToken) (h : String)
    (hget : t.attrGet "href" = some h)
    (hfalse : isExternalLink site (some h) = false) : linkOpenRule site t = t := by
  unfold linkOpenRule
  rw [hget, hfalse]
  simp

theorem isExternal_false_of_hash (site : SiteConfig) (h : String)
    (hs : strStartsWith (jsTrim h) "#" = true) :
    isExternalLink site (some h) = false := by
  have hne : ¬(jsTrim h = "") := by
    intro he
    rw [he] at hs
    exact absurd hs (by decide)
  simp only [isExternalLink]
  rw [if_neg hne, if_pos (by simp [hs])]

theorem isExternal_false_of_slash (site : SiteConfig) (h : String)
    (hs : strStartsWith (jsTrim h) "/" = true) :
    isExternalLink site (some h) = false := by
  have hne : ¬(jsTrim h = "") := by
    intro he
    rw [he] at hs
    exact absurd hs (by decide)
  simp only [isExternalLink]
  rw [if_neg hne, if_pos (by simp [hs])]

theorem isExternal_false_of_exempt (site : SiteConfig) (h : String)
    (hs : strStartsWith (strToLower (jsTrim h)) "mailto:" = true ∨
      strStartsWith (strToLower (jsTrim h)) "tel:" = true ∨
      strStartsWith (strToLower (jsTrim h)) "javascript:" = true) :
    isExternalLink site (some h) = false := by
  have hne : ¬(jsTrim h = "") := by
    intro he
    rcases hs with hs | hs | hs <;> (rw [he] at hs; exact absurd hs (by decide))
  simp only [isExternalLink]
  rw [if_neg hne]
  by_cases h2 : (strStartsWith (jsTrim h) "#" || strStartsWith (jsTrim h) "/") = true
  · rw [if_pos h2]
  · rw [if_neg h2, if_pos (by rcases hs with hs | hs | hs <;> simp [hs])]

theorem isExternal_false_of_relative (site : SiteConfig) (h : String)
    (hsch : schemeSplit (jsTrim h) = none) :
    isExternalLink site (some h) = false := by
  simp only [isExternalLink]
  by_cases h0 : jsTrim h = ""
  · rw [if_pos h0]
  rw [if_neg h0]
  by_cases h2 : (strStartsWith (jsTrim h) "#" || strStartsWith (jsTrim h) "/") = true
  · rw [if_pos h2]
  rw [if_neg h2]
  by_cases h3 : (strStartsWith (strToLower (jsTrim h)) "mailto:" ||
      strStartsWith (strToLower (jsTrim h)) "tel:" ||
      strStartsWith (strToLower (jsTrim h)) "javascript:") = true
  · rw [if_pos h3]
  rw [if_neg h3]
  unfold jsUrlOrigin
  rw [hsch]
  cases hb : schemeSplit site.origin with
  | none =>
    dsimp only
  | some p =>
    obtain ⟨bs, br⟩ := p
    dsimp only
    by_cases hsp : (specialSchemePort (strToLower bs)).isSome = true
    · rw [if_pos hsp]
      cases ha : absUrlOrigin site.origin with
      | none => rfl
      | some so => simp
    · rw [if_neg hsp]

theorem isExternal_true_of_origin (site : SiteConfig) (h sch rest o so : String)
    (hsch : schemeSplit (jsTrim h) = some (sch, rest))
    (hm1 : strStartsWith (strToLower (jsTrim h)) "mailto:" = false)
    (hm2 : strStartsWith (strToLower (jsTrim h)) "tel:" = false)
    (hm3 : strStartsWith (strToLower (jsTrim h)) "javascript:" = false)
    (ho : absUrlOrigin (jsTrim h) = some o)
    (hso : absUrlOrigin site.origin = some so)
    (hne : o ≠ so) :
    isExternalLink site (some h) = true := by
  obtain ⟨c, cs, hlist, halpha⟩ := schemeSplit_shape _ _ _ hsch
  have h0 : ¬(jsTrim h = "") := by
    intro he
    rw [he] at hlist
    simp at hlist
  have hcne1 : c ≠ '#' := by
    intro hc
    rw [hc] at halpha
    exact absurd halpha (by decide)
  have hcne2 : c ≠ '/' := by
    intro hc
    rw [hc] at halpha
    exact absurd halpha (by decide)
  have hhash : strStartsWith (jsTrim h) "#" = false := by
    unfold strStartsWith
    rw [hlist]
    show startsWithChars (c :: cs) ['#'] = false
    simp [startsWithChars, hcne1]
  have hslash : strStartsWith (jsTrim h) "/" = false := by
    unfold strStartsWith
    rw [hlist]
    show startsWithChars (c :: cs) ['/'] = false
    simp [startsWithChars, hcne2]
  simp only [isExternalLink]
  rw [if_neg h0, if_neg (by simp [hhash, hslash]), if_neg (by simp [hm1, hm2, hm3])]
  unfold jsUrlOrigin
  rw [hsch]
  dsimp only
  rw [ho, hso]
  dsimp only
  simp [bne_iff_ne, hne]

/-- C5: an anchor whose trimmed href is an absolute (scheme-bearing)
reference outside the exempt `mailto:`/`tel:`/`javascript:` schemes and
whose origin differs from the site origin receives `target="_blank"` and
`rel="noopener noreferrer"`; anchors whose href is a fragment link, a
rooted or scheme-less relative path, or uses an exempt scheme are left
unmodified. -/
theorem linkOpenRule_spec (site : SiteConfig) (t : LinkToken) :
    (∀ h sch rest o so, t.attrGet "href" = some h →
      schemeSplit (jsTrim h) = some (sch, rest) →
      strStartsWith (strToLower (jsTrim h)) "mailto:" = false →
      strStartsWith (strToLower (jsTrim h)) "tel:" = false →
      strStartsWith (strToLower (jsTrim h)) "javascript:" = false →
      absUrlOrigin (jsTrim h) = some o →
      absUrlOrigin site.origin = some so → o ≠ so →
      (linkOpenRule site t).attrGet "target" = some "_blank" ∧
        (linkOpenRule site t).attrGet "rel" = some "noopener noreferrer") ∧
    (∀ h, t.attrGet "href" = some h → strStartsWith (jsTrim h) "#" = true →
      linkOpenRule site t = t) ∧
    (∀ h, t.attrGet "href" = some h → strStartsWith (jsTrim h) "/" = true →
      linkOpenRule site t = t) ∧
    (∀ h, t.attrGet "href" = some h → schemeSplit (jsTrim h) = none →
      linkOpenRule site t = t) ∧
    (∀ h, t.attrGet "href" = some h →
      (strStartsWith (strToLower (jsTrim h)) "mailto:" = true ∨
        strStartsWith (strToLower (jsTrim h)) "tel:" = true ∨
        strStartsWith (strToLower (jsTrim h)) "javascript:" = true) →
      linkOpenRule site t = t) := by
  refine ⟨?_, ?_, ?_, ?_, ?_⟩
  · intro h sch rest o so hget hsch hm1 hm2 hm3 ho hso hne
    have hext := isExternal_true_of_origin site h sch rest o so hsch hm1 hm2 hm3 ho hso hne
    unfold linkOpenRule
    rw [hget, hext]
    simp only [if_pos]
    constructor
    · rw [show (t.attrSet "target" "_blank").attrSet "rel" "noopener noreferrer" =
          LinkToken.mk (setFirstAttr ((t.attrSet "target" "_blank").attrs)
            "rel" "noopener noreferrer") from rfl]
      rw [setFirstAttr_get_other _ _ _ _ (by decide)]
      exact setFirstAttr_get_same t.attrs "target" "_blank"
    · exact setFirstAttr_get_same _ "rel" "noopener noreferrer"
  · intro h hget hs
    exact linkOpen_unmodified site t h hget (isExternal_false_of_hash site h hs)
  · intro h hget hs
    exact linkOpen_unmodified site t h hget (isExternal_false_of_slash site h hs)
  · intro h hget hs
    exact linkOpen_unmodified site t h hget (isExternal_false_of_relative site h hs)
  · intro h hget hs
    exact linkOpen_unmodified site t h hget (isExternal_false_of_exempt site h hs)

/-- Witness for the C5 theorem on concrete tokens. -/
theorem linkOpenRule_spec_witness :
    (linkOpenRule defaultSite ⟨[("href", "https://example.com/a")]⟩).attrGet "target" =
      some "_blank" ∧
    (linkOpenRule defaultSite ⟨[("href", "https://example.com/a")]⟩).attrGet "rel" =
      some "noopener noreferrer" ∧
    linkOpenRule defaultSite ⟨[("href", "#section")]⟩ = ⟨[("href", "#section")]⟩ ∧
    linkOpenRule defaultSite ⟨[("href", "/blog.html")]⟩ = ⟨[("href", "/blog.html")]⟩ ∧
    linkOpenRule defaultSite ⟨[("href", "docs/x.html")]⟩ = ⟨[("href", "docs/x.html")]⟩ ∧
    linkOpenRule defaultSite ⟨[("href", "mailto:a@b.c")]⟩ = ⟨[("href", "mailto:a@b.c")]⟩ := by
  have hext := (linkOpenRule_spec defaultSite ⟨[("href", "https://example.com/a")]⟩).1
    "https://example.com/a" "https" "//example.com/a" "https://example.com"
    "https://miguel-br-dl.github.io" (by decide) (by decide) (by decide) (by decide)
    (by decide) (by decide) (by decide) (by decide)
  refine ⟨hext.1, hext.2, ?_, ?_, ?_, ?_⟩
  · exact (linkOpenRule_spec defaultSite _).2.1 "#section" (by decide) (by decide)
  · exact (linkOpenRule_spec defaultSite _).2.2.1 "/blog.html" (by decide) (by decide)
  · exact (linkOpenRule_spec defaultSite _).2.2.2.1 "docs/x.html" (by decide) (by decide)
  · exact (linkOpenRule_spec defaultSite _).2.2.2.2 "mailto:a@b.c" (by decide)
      (Or.inl (by decide))

theorem jsWs_ne_lt (c : Char) (h : jsWs c = true) : c ≠ '<' := by
  intro hc
  rw [hc] at h
  exact absurd h (by decide)

theorem isImgWsHead_elim (l : List Char) (h : isImgWsHead l = true) :
    ∃ d r, l = '<' :: 'i' :: 'm' :: 'g' :: d :: r ∧ jsWs d = true := by
  unfold isImgWsHead at h
  split at h
  case h_1 d r => exact ⟨d, r, rfl, h⟩
  case h_2 => exact absurd h (by decide)

theorem isImgWsHead_false_of_ne (c : Char) (l : List Char) (hc : c ≠ '<') :
    isImgWsHead (c :: l) = false := by
  cases hh : isImgWsHead (c :: l) with
  | false => rfl
  | true =>
    rcases isImgWsHead_elim _ hh with ⟨d, r, heq, _⟩
    exact absurd (List.cons.inj heq).1 hc

theorem lazyScan_cons_elim (fuel : Nat) (cs : List Char) (c : Char) (tl : List Char)
    (h : lazyScan fuel cs = c :: tl) (hc : c ≠ '<') :
    ∃ fuel2 cs2, cs = c :: cs2 ∧ tl = lazyScan fuel2 cs2 := by
  cases fuel with
  | zero => exact ⟨0, tl, h, rfl⟩
  | succ fuel =>
    cases cs with
    | nil => exact absurd h (by simp [lazyScan])
    | cons e cs' =>
      by_cases hh : isImgWsHead (e :: cs')
      · rw [lazyScan, if_pos hh] at h
        rcases isImgWsHead_elim _ hh with ⟨d, r, heq, _⟩
        have : c = '<' := by
          have := (List.cons.inj h.symm).1
          simpa [lazyReplacement] using this
        exact absurd this hc
      · rw [lazyScan, if_neg hh] at h
        obtain ⟨he, ht⟩ := List.cons.inj h
        exact ⟨fuel, cs', by rw [he], ht.symm⟩

theorem lazyScan_img_prefix (fuel : Nat) (cs : List Char) (d : Char) (rest : List Char)
    (h : lazyScan fuel cs = 'i' :: 'm' :: 'g' :: d :: rest) (hd : jsWs d = true) :
    ∃ cs4, cs = 'i' :: 'm' :: 'g' :: d :: cs4 := by
  rcases lazyScan_cons_elim fuel cs 'i' _ h (by decide) with ⟨f1, c1, he1, ht1⟩
  rcases lazyScan_cons_elim f1 c1 'm' _ ht1.symm (by decide) with ⟨f2, c2, he2, ht2⟩
  rcases lazyScan_cons_elim f2 c2 'g' _ ht2.symm (by decide) with ⟨f3, c3, he3, ht3⟩
  rcases lazyScan_cons_elim f3 c3 d _ ht3.symm (jsWs_ne_lt d hd) with ⟨f4, c4, he4, _⟩
  exact ⟨c4, by rw [he1, he2, he3, he4]⟩

theorem lazyViolation_elim (fuel : Nat) (cs : List Char) (c : Char)
    (h : lazyViolationAt (c :: lazyScan fuel cs) = true) :
    isImgWsHead (c :: cs) = true := by
  unfold lazyViolationAt at h
  split at h
  case h_2 => exact absurd h (by decide)
  case h_1 d rest heq =>
    obtain ⟨hc, hout⟩ := List.cons.inj heq
    have hd : jsWs d = true := ((Bool.and_eq_true _ _).mp h).1
    rcases lazyScan_img_prefix fuel cs d rest hout hd with ⟨cs4, hcs⟩
    rw [hc, hcs]
    show isImgWsHead ('<' :: 'i' :: 'm' :: 'g' :: d :: cs4) = true
    simp [isImgWsHead, hd]

theorem imgHead_out_elim (fuel : Nat) (cs : List Char) (c : Char)
    (h : isImgWsHead (c :: lazyScan fuel cs) = true) :
    isImgWsHead (c :: cs) = true := by
  rcases isImgWsHead_elim _ h with ⟨d, r, heq, hd⟩
  obtain ⟨hc, hout⟩ := List.cons.inj heq
  rcases lazyScan_img_prefix fuel cs d r hout hd with ⟨cs4, hcs⟩
  rw [hc, hcs]
  simp [isImgWsHead, hd]

theorem countImgWs_dropWhile_ws (l : List Char) :
    countImgWs (l.dropWhile jsWs) = countImgWs l := by
  induction l with
  | nil => rfl
  | cons w tail ih =>
    by_cases hw : jsWs w = true
    · rw [List.dropWhile_cons_of_pos hw, ih]
      rw [countImgWs, isImgWsHead_false_of_ne w tail (jsWs_ne_lt w hw)]
      simp
    · rw [List.dropWhile_cons_of_neg (by simpa using hw)]

theorem lazyViolationAt_elim (l : List Char) (h : lazyViolationAt l = true) :
    ∃ d r, l = '<' :: 'i' :: 'm' :: 'g' :: d :: r := by
  unfold lazyViolationAt at h
  split at h
  case h_1 d r => exact ⟨d, r, rfl⟩
  case h_2 => exact absurd h (by decide)

theorem lazyViolation_false_of_ne (c : Char) (l : List Char) (hc : c ≠ '<') :
    lazyViolationAt (c :: l) = false := by
  cases hh : lazyViolationAt (c :: l) with
  | false => rfl
  | true =>
    rcases lazyViolationAt_elim _ hh with ⟨d, r, heq⟩
    exact absurd (List.cons.inj heq).1 hc

theorem lazyOk_cons_ne (x : Char) (xs : List Char) (hx : x ≠ '<') :
    lazyOkList (x :: xs) = lazyOkList xs := by
  rw [lazyOkList, lazyViolation_false_of_ne x xs hx]
  simp

theorem countImgWs_cons_ne (x : Char) (xs : List Char) (hx : x ≠ '<') :
    countImgWs (x :: xs) = countImgWs xs := by
  rw [countImgWs, isImgWsHead_false_of_ne x xs hx]
  simp

theorem lazyOk_rep (z : List Char) (hz : lazyOkList z = true) :
    lazyOkList (lazyReplacement ++ z) = true := by
  have htake : List.take 15 ("loading=\x22lazy\x22 ".toList ++ z) =
      "loading=\x22lazy\x22 ".toList := List.take_left' (by decide)
  show lazyOkList
      ('<' :: 'i' :: 'm' :: 'g' :: ' ' :: ("loading=\x22lazy\x22 ".toList ++ z)) = true
  have hv0 : lazyViolationAt
      ('<' :: 'i' :: 'm' :: 'g' :: ' ' :: ("loading=\x22lazy\x22 ".toList ++ z)) =
      false := by
    rw [show lazyViolationAt
        ('<' :: 'i' :: 'm' :: 'g' :: ' ' :: ("loading=\x22lazy\x22 ".toList ++ z)) =
        (jsWs ' ' && !(decide (' ' = ' ') &&
          decide (List.take 15 ("loading=\x22lazy\x22 ".toList ++ z) =
            "loading=\x22lazy\x22 ".toList))) from rfl]
    rw [htake]
    decide
  rw [lazyOkList, hv0]
  simp only [Bool.not_false, Bool.true_and]
  show lazyOkList ("img loading=\x22lazy\x22 ".toList ++ z) = true
  simp only [show ("img loading=\x22lazy\x22 ".toList : List Char) =
    'i' :: 'm' :: 'g' :: ' ' :: 'l' :: 'o' :: 'a' :: 'd' :: 'i' :: 'n' :: 'g' :: '=' ::
      '\x22' :: 'l' :: 'a' :: 'z' :: 'y' :: '\x22' :: ' ' :: [] from rfl, List.cons_append,
    List.nil_append]
  rw [lazyOk_cons_ne _ _ (by decide), lazyOk_cons_ne _ _ (by decide),
    lazyOk_cons_ne _ _ (by decide), lazyOk_cons_ne _ _ (by decide),
    lazyOk_cons_ne _ _ (by decide), lazyOk_cons_ne _ _ (by decide),
    lazyOk_cons_ne _ _ (by decide), lazyOk_cons_ne _ _ (by decide),
    lazyOk_cons_ne _ _ (by decide), lazyOk_cons_ne _ _ (by decide),
    lazyOk_cons_ne _ _ (by decide), lazyOk_cons_ne _ _ (by decide),
    lazyOk_cons_ne _ _ (by decide), lazyOk_cons_ne _ _ (by decide),
    lazyOk_cons_ne _ _ (by decide), lazyOk_cons_ne _ _ (by decide),
    lazyOk_cons_ne _ _ (by decide), lazyOk_cons_ne _ _ (by decide),
    lazyOk_cons_ne _ _ (by decide)]
  exact hz

theorem countImgWs_rep (z : List Char) :
    countImgWs (lazyReplacement ++ z) = 1 + countImgWs z := by
  show countImgWs
      ('<' :: 'i' :: 'm' :: 'g' :: ' ' :: ("loading=\x22lazy\x22 ".toList ++ z)) =
      1 + countImgWs z
  have h0 : isImgWsHead
      ('<' :: 'i' :: 'm' :: 'g' :: ' ' :: ("loading=\x22lazy\x22 ".toList ++ z)) =
      true := rfl
  rw [countImgWs, h0]
  simp only [if_true, reduceIte]
  have htail : countImgWs ('i' :: 'm' :: 'g' :: ' ' ::
      ("loading=\x22lazy\x22 ".toList ++ z)) = countImgWs z := by
    simp only [show ("loading=\x22lazy\x22 ".toList : List Char) =
      'l' :: 'o' :: 'a' :: 'd' :: 'i' :: 'n' :: 'g' :: '=' :: '\x22' :: 'l' :: 'a' ::
        'z' :: 'y' :: '\x22' :: ' ' :: [] from rfl, List.cons_append, List.nil_append]
    rw [countImgWs_cons_ne _ _ (by decide), countImgWs_cons_ne _ _ (by decide),
      countImgWs_cons_ne _ _ (by decide), countImgWs_cons_ne _ _ (by decide),
      countImgWs_cons_ne _ _ (by decide), countImgWs_cons_ne _ _ (by decide),
      countImgWs_cons_ne _ _ (by decide), countImgWs_cons_ne _ _ (by decide),
      countImgWs_cons_ne _ _ (by decide), countImgWs_cons_ne _ _ (by decide),
      countImgWs_cons_ne _ _ (by decide), countImgWs_cons_ne _ _ (by decide),
      countImgWs_cons_ne _ _ (by decide), countImgWs_cons_ne _ _ (by decide),
      countImgWs_cons_ne _ _ (by decide), countImgWs_cons_ne _ _ (by decide),
      countImgWs_cons_ne _ _ (by decide), countImgWs_cons_ne _ _ (by decide),
      countImgWs_cons_ne _ _ (by decide)]
  rw [htail]

theorem lazyScan_spec : ∀ (fuel : Nat) (cs : List Char), cs.length ≤ fuel →
    lazyOkList (lazyScan fuel cs) = true ∧
    countImgWs (lazyScan fuel cs) = countImgWs cs := by
  intro fuel
  induction fuel with
  | zero =>
    intro cs h
    have hc : cs = [] := List.eq_nil_of_length_eq_zero (Nat.le_zero.mp h)
    subst hc
    exact ⟨rfl, rfl⟩
  | succ fuel ih =>
    intro cs h
    cases cs with
    | nil => exact ⟨rfl, rfl⟩
    | cons c cs' =>
      by_cases hh : isImgWsHead (c :: cs') = true
      · rcases isImgWsHead_elim _ hh with ⟨d, r, heq, hd⟩
        obtain ⟨hc, hcs'⟩ := List.cons.inj heq
        subst hc
        subst hcs'
        rw [lazyScan, if_pos hh]
        rw [show (('i' :: 'm' :: 'g' :: d :: r).drop 3) = d :: r from rfl]
        have hlen : ((d :: r).dropWhile jsWs).length ≤ fuel := by
          have h1 := (List.dropWhile_sublist (l := d :: r) jsWs).length_le
          simp only [List.length_cons] at h h1 ⊢
          omega
        obtain ⟨ih1, ih2⟩ := ih _ hlen
        refine ⟨lazyOk_rep _ ih1, ?_⟩
        rw [countImgWs_rep, ih2, countImgWs_dropWhile_ws]
        have hr : countImgWs ('<' :: 'i' :: 'm' :: 'g' :: d :: r) =
            1 + countImgWs ('i' :: 'm' :: 'g' :: d :: r) := by
          rw [countImgWs, hh]
          simp
        rw [hr, countImgWs_cons_ne 'i' _ (by decide), countImgWs_cons_ne 'm' _ (by decide),
          countImgWs_cons_ne 'g' _ (by decide)]
      · rw [lazyScan, if_neg hh]
        have hlen : cs'.length ≤ fuel := by
          simp only [List.length_cons] at h
          omega
        obtain ⟨ih1, ih2⟩ := ih cs' hlen
        constructor
        · rw [lazyOkList]
          have hv : lazyViolationAt (c :: lazyScan fuel cs') = false := by
            cases hvv : lazyViolationAt (c :: lazyScan fuel cs') with
            | false => rfl
            | true => exact absurd (lazyViolation_elim fuel cs' c hvv) hh
          rw [hv, ih1]
          rfl
        · have hv2 : isImgWsHead (c :: lazyScan fuel cs') = false := by
            cases hvv : isImgWsHead (c :: lazyScan fuel cs') with
            | false => rfl
            | true => exact absurd (imgHead_out_elim fuel cs' c hvv) hh
          have hv3 : isImgWsHead (c :: cs') = false := by
            cases hvv : isImgWsHead (c :: cs') with
            | false => rfl
            | true => exact absurd hvv hh
          rw [countImgWs, hv2, countImgWs, hv3, ih2]

/-- C9 (amended): after the lazy-loading rewrite, every `<img` that is
followed by whitespace — the form markdown-it emits for every Markdown
image — is immediately followed by ` loading="lazy" `, and the number of
such image openings is preserved.  An attribute-less raw `<img>` (legal
raw HTML in the Markdown source, passed through by the renderer) is not
matched by the regex and gains no attribute. -/
theorem addLazyLoading_lazy (html : String) :
    lazyOkList (addLazyLoadingToImages html).toList = true ∧
    countImgWs (addLazyLoadingToImages html).toList = countImgWs html.toList := by
  unfold addLazyLoadingToImages
  exact lazyScan_spec html.toList.length html.toList le_rfl

/-- C9 counterexample: a raw `<img>` with no attributes passes through
the lazy-loading rewrite unchanged, with no `loading` attribute, so a
post whose Markdown contains it renders an image tag without
`loading="lazy"`. -/
theorem addLazyLoading_counterexample :
    addLazyLoadingToImages "<p>x</p>\n<img>\n" = "<p>x</p>\n<img>\n" ∧
    ¬ ("loading".toList <:+: "<p>x</p>\n<img>\n".toList) ∧
    addLazyLoadingToImages "<p><img src=\x22a.png\x22></p>" =
      "<p><img loading=\x22lazy\x22 src=\x22a.png\x22></p>" := by
  refine ⟨by rfl, by decide, by rfl⟩

theorem charListLe_total : ∀ as bs : List Char,
    charListLe as bs = true ∨ charListLe bs as = true
  | [], _ => Or.inl rfl
  | _ :: _, [] => Or.inr rfl
  | a :: as, b :: bs => by
    rcases Nat.lt_trichotomy a.toNat b.toNat with h | h | h
    · left
      rw [charListLe, if_pos h]
    · rcases charListLe_total as bs with hc | hc
      · left
        rw [charListLe, if_neg (by omega), if_neg (by omega)]
        exact hc
      · right
        rw [charListLe, if_neg (by omega), if_neg (by omega)]
        exact hc
    · right
      rw [charListLe, if_pos h]

theorem charListLe_trans : ∀ as bs cs : List Char,
    charListLe as bs = true → charListLe bs cs = true → charListLe as cs = true
  | [], _, _, _, _ => rfl
  | _ :: _, [], _, h1, _ => by simp [charListLe] at h1
  | _ :: _, _ :: _, [], _, h2 => by simp [charListLe] at h2
  | a :: as, b :: bs, c :: cs, h1, h2 => by
    rw [charListLe] at h1 h2 ⊢
    split at h1
    next hab =>
      split at h2
      next hbc => rw [if_pos (by omega)]
      next hbc =>
        split at h2
        next hcb => simp at h2
        next hcb => rw [if_pos (by omega)]
    next hab =>
      split at h1
      next hba => simp at h1
      next hba =>
        split at h2
        next hbc => rw [if_pos (by omega)]
        next hbc =>
          split at h2
          next hcb => simp at h2
          next hcb =>
            rw [if_neg (by omega), if_neg (by omega)]
            exact charListLe_trans as bs cs h1 h2

theorem charListLe_antisymm : ∀ as bs : List Char,
    charListLe as bs = true → charListLe bs as = true → as = bs
  | [], [], _, _ => rfl
  | [], _ :: _, _, h2 => by simp [charListLe] at h2
  | _ :: _, [], h1, _ => by simp [charListLe] at h1
  | a :: as, b :: bs, h1, h2 => by
    rw [charListLe] at h1 h2
    split at h1
    next hab =>
      rw [if_neg (by omega), if_pos (by omega)] at h2
      simp at h2
    next hab =>
      split at h1
      next hba => simp at h1
      next hba =>
        rw [if_neg (by omega), if_neg (by omega)] at h2
        have hn : a.toNat = b.toNat := by omega
        have hc : a = b := Char.ext (UInt32.ext hn)
        rw [hc, charListLe_antisymm as bs h1 h2]

theorem ptBRle_total (a b : String) : ptBRle a b = true ∨ ptBRle b a = true := by
  simp only [ptBRle]
  by_cases h : a.toList.map jsToLowerChar = b.toList.map jsToLowerChar
  · rw [if_pos h, if_pos h.symm]
    exact charListLe_total (a.toList.map caseFlipChar) (b.toList.map caseFlipChar)
  · rw [if_neg h, if_neg (fun hh => h hh.symm)]
    exact charListLe_total _ _

theorem ptBRle_trans (a b c : String) (h1 : ptBRle a b = true) (h2 : ptBRle b c = true) :
    ptBRle a c = true := by
  simp only [ptBRle] at h1 h2 ⊢
  by_cases hab : a.toList.map jsToLowerChar = b.toList.map jsToLowerChar
  · rw [if_pos hab] at h1
    by_cases hbc : b.toList.map jsToLowerChar = c.toList.map jsToLowerChar
    · rw [if_pos hbc] at h2
      rw [if_pos (hab.trans hbc)]
      exact charListLe_trans _ _ _ h1 h2
    · rw [if_neg hbc] at h2
      have hac : a.toList.map jsToLowerChar ≠ c.toList.map jsToLowerChar :=
        fun hh => hbc (hab ▸ hh)
      rw [if_neg hac, hab]
      exact h2
  · rw [if_neg hab] at h1
    by_cases hbc : b.toList.map jsToLowerChar = c.toList.map jsToLowerChar
    · rw [if_pos hbc] at h2
      have hac : a.toList.map jsToLowerChar ≠ c.toList.map jsToLowerChar :=
        fun hh => hab (hh.trans hbc.symm)
      rw [if_neg hac, ← hbc]
      exact h1
    · rw [if_neg hbc] at h2
      by_cases hac : a.toList.map jsToLowerChar = c.toList.map jsToLowerChar
      · exact absurd (charListLe_antisymm _ _ h1 (hac.symm ▸ h2)) hab
      · rw [if_neg hac]
        exact charListLe_trans _ _ _ h1 h2

theorem get?_setKV {V : Type} : ∀ (l : List (String × V)) (k tag : String) (v : V),
    ((setKV l k v).find? (fun e => e.1 = tag)).map (fun e => e.2) =
      if k = tag then some v else (l.find? (fun e => e.1 = tag)).map (fun e => e.2)
  | [], k, tag, v => by
    by_cases h : k = tag
    · rw [setKV, List.find?_cons_of_pos _ (by simp [h]), if_pos h]
      rfl
    · rw [setKV, List.find?_cons_of_neg _ (by simp [h]), if_neg h]
  | (a, b) :: rest, k, tag, v => by
    rw [setKV]
    by_cases hak : a = k
    · rw [if_pos hak]
      by_cases hat : a = tag
      · have hkt : k = tag := (hak.symm.trans hat)
        rw [List.find?_cons_of_pos _ (by simp [hat]), if_pos hkt]
        rfl
      · have hkt : k ≠ tag := fun h => hat (hak.trans h)
        rw [List.find?_cons_of_neg _ (by simp [hat]), if_neg hkt,
          List.find?_cons_of_neg _ (by simp [hat])]
    · rw [if_neg hak]
      by_cases hat : a = tag
      · have hkt : k ≠ tag := fun h => hak (hat.trans h.symm)
        rw [List.find?_cons_of_pos _ (by simp [hat]), if_neg hkt,
          List.find?_cons_of_pos _ (by simp [hat])]
      · rw [List.find?_cons_of_neg _ (by simp [hat]),
          get?_setKV rest k tag v]
        by_cases hkt : k = tag
        · rw [if_pos hkt, if_pos hkt]
        · rw [if_neg hkt, if_neg hkt, List.find?_cons_of_neg _ (by simp [hat])]

theorem JsObj_get?_set {V : Type} (o : JsObj V) (k tag : String) (v : V) :
    (o.set k v).get? tag = if k = tag then some v else o.get? tag :=
  get?_setKV o.entries k tag v

theorem get?_pushTags : ∀ (tags : List String) (m : JsObj (List TagEntry)) (e : TagEntry)
    (tag : String),
    ((tags.foldl (fun m t => m.set t (((m.get? t).getD []) ++ [e])) m).get? tag).getD [] =
      ((m.get? tag).getD []) ++ List.replicate (tags.count tag) e
  | [], m, e, tag => by simp [List.foldl]
  | t :: ts, m, e, tag => by
    rw [List.foldl_cons, get?_pushTags ts _ e tag]
    by_cases htt : t = tag
    · subst htt
      rw [JsObj_get?_set, if_pos rfl, List.count_cons_self]
      simp [List.replicate_succ]
    · rw [JsObj_get?_set, if_neg htt, List.count_cons_of_ne (Ne.symm htt)]

theorem get?_postsFold : ∀ (posts : List Post) (m : JsObj (List TagEntry)) (tag : String),
    ((posts.foldl (fun m post => post.tags.foldl
        (fun m tag => m.set tag (((m.get? tag).getD []) ++ [tagEntryOf post])) m) m).get?
          tag).getD [] =
      ((m.get? tag).getD []) ++
        posts.flatMap (fun p => List.replicate (p.tags.count tag) (tagEntryOf p))
  | [], m, tag => by simp
  | p :: ps, m, tag => by
    rw [List.foldl_cons, get?_postsFold ps _ tag,
      get?_pushTags p.tags m (tagEntryOf p) tag, List.flatMap_cons, List.append_assoc]

theorem get?_fillFold (TM : JsObj (List TagEntry)) :
    ∀ (keys : List String) (s : JsObj (List TagEntry)) (tag : String),
    ((keys.foldl (fun s tag => s.set tag ((TM.get? tag).getD [])) s)).get? tag =
      if tag ∈ keys then some ((TM.get? tag).getD []) else s.get? tag
  | [], s, tag => by simp
  | k :: ks, s, tag => by
    rw [List.foldl_cons, get?_fillFold TM ks _ tag, JsObj_get?_set]
    by_cases hm : tag ∈ ks
    · rw [if_pos hm, if_pos (List.mem_cons_of_mem k hm)]
    · rw [if_neg hm]
      by_cases hk : k = tag
      · rw [if_pos hk, if_pos (by rw [← hk]; exact List.mem_cons_self k ks), hk]
      · rw [if_neg hk, if_neg (by
          intro hmem
          rcases List.mem_cons.mp hmem with h | h
          · exact hk h.symm
          · exact hm h)]

theorem setKV_append {V : Type} : ∀ (l : List (String × V)) (k : String) (v : V),
    k ∉ l.map Prod.fst → setKV l k v = l ++ [(k, v)]
  | [], _, _, _ => rfl
  | (a, b) :: rest, k, v, h => by
    have hak : a ≠ k := by
      intro hh
      exact h (by simp [hh])
    rw [setKV, if_neg hak,
      setKV_append rest k v (fun hh => h (List.mem_cons_of_mem _ hh))]
    rfl

theorem entriesKeys_fill (TM : JsObj (List TagEntry)) :
    ∀ (keys : List String) (s : JsObj (List TagEntry)),
    keys.Nodup → (∀ k ∈ keys, k ∉ s.entries.map Prod.fst) →
    ((keys.foldl (fun s tag => s.set tag ((TM.get? tag).getD [])) s)).entries.map Prod.fst =
      s.entries.map Prod.fst ++ keys
  | [], s, _, _ => by simp
  | k :: ks, s, hnd, hdisj => by
    rw [List.foldl_cons]
    have hset : (s.set k ((TM.get? k).getD [])).entries = s.entries ++ [(k, (TM.get? k).getD [])] :=
      setKV_append s.entries k _ (hdisj k (List.mem_cons_self k ks))
    have hdisj2 : ∀ x ∈ ks, x ∉ (s.set k ((TM.get? k).getD [])).entries.map Prod.fst := by
      intro x hx hmem
      rw [hset, List.map_append] at hmem
      rcases List.mem_append.mp hmem with h | h
      · exact hdisj x (List.mem_cons_of_mem k hx) h
      · simp at h
        exact (List.nodup_cons.mp hnd).1 (h ▸ hx)
    rw [entriesKeys_fill TM ks _ (List.nodup_cons.mp hnd).2 hdisj2, hset, List.map_append]
    simp

theorem mem_keys_setKV {V : Type} : ∀ (l : List (String × V)) (k : String) (v : V) (x : String),
    x ∈ (setKV l k v).map Prod.fst → x = k ∨ x ∈ l.map Prod.fst
  | [], k, v, x, h => by
    rw [setKV] at h
    simp at h
    exact Or.inl h
  | (a, b) :: rest, k, v, x, h => by
    rw [setKV] at h
    split at h
    next hak =>
      simp only [List.map_cons, List.mem_cons] at h
      rcases h with h | h
      · exact Or.inr (by simp [h])
      · exact Or.inr (by simp [h])
    next hak =>
      simp only [List.map_cons, List.mem_cons] at h
      rcases h with h | h
      · exact Or.inr (by simp [h])
      · rcases mem_keys_setKV rest k v x h with h2 | h2
        · exact Or.inl h2
        · exact Or.inr (by simp [h2])

theorem mem_keys_pushTags : ∀ (tags : List String) (m : JsObj (List TagEntry)) (e : TagEntry)
    (x : String),
    x ∈ ((tags.foldl (fun m t => m.set t (((m.get? t).getD []) ++ [e])) m)).entries.map
      Prod.fst →
    x ∈ tags ∨ x ∈ m.entries.map Prod.fst
  | [], _, _, _, h => Or.inr h
  | t :: ts, m, e, x, h => by
    rw [List.foldl_cons] at h
    rcases mem_keys_pushTags ts _ e x h with h2 | h2
    · exact Or.inl (List.mem_cons_of_mem t h2)
    · rcases mem_keys_setKV m.entries t _ x h2 with h3 | h3
      · exact Or.inl (by rw [h3]; exact List.mem_cons_self t ts)
      · exact Or.inr h3

theorem mem_keys_postsFold : ∀ (posts : List Post) (m : JsObj (List TagEntry)) (x : String),
    x ∈ ((posts.foldl (fun m post => post.tags.foldl
        (fun m tag => m.set tag (((m.get? tag).getD []) ++ [tagEntryOf post])) m)
          m)).entries.map Prod.fst →
    (∃ p ∈ posts, x ∈ p.tags) ∨ x ∈ m.entries.map Prod.fst
  | [], _, _, h => Or.inr h
  | p :: ps, m, x, h => by
    rw [List.foldl_cons] at h
    rcases mem_keys_postsFold ps _ x h with h2 | h2
    · rcases h2 with ⟨q, hq, hx⟩
      exact Or.inl ⟨q, List.mem_cons_of_mem p hq, hx⟩
    · rcases mem_keys_pushTags p.tags m (tagEntryOf p) x h2 with h3 | h3
      · exact Or.inl ⟨p, List.mem_cons_self p ps, h3⟩
      · exact Or.inr h3

theorem nodup_keys_setKV {V : Type} : ∀ (l : List (String × V)) (k : String) (v : V),
    (l.map Prod.fst).Nodup → ((setKV l k v).map Prod.fst).Nodup
  | [], _, _, _ => by simp [setKV]
  | (a, b) :: rest, k, v, h => by
    rw [setKV]
    split
    next hak => exact h
    next hak =>
      simp only [List.map_cons, List.nodup_cons] at h ⊢
      refine ⟨?_, nodup_keys_setKV rest k v h.2⟩
      intro hmem
      rcases mem_keys_setKV rest k v a hmem with h2 | h2
      · exact hak h2
      · exact h.1 h2

theorem nodup_keys_pushTags : ∀ (tags : List String) (m : JsObj (List TagEntry)) (e : TagEntry),
    (m.entries.map Prod.fst).Nodup →
    (((tags.foldl (fun m t => m.set t (((m.get? t).getD []) ++ [e])) m)).entries.map
      Prod.fst).Nodup
  | [], _, _, h => h
  | t :: ts, m, e, h => by
    rw [List.foldl_cons]
    exact nodup_keys_pushTags ts _ e (nodup_keys_setKV m.entries t _ h)

theorem nodup_keys_postsFold : ∀ (posts : List Post) (m : JsObj (List TagEntry)),
    (m.entries.map Prod.fst).Nodup →
    (((posts.foldl (fun m post => post.tags.foldl
        (fun m tag => m.set tag (((m.get? tag).getD []) ++ [tagEntryOf post])) m)
          m)).entries.map Prod.fst).Nodup
  | [], _, h => h
  | p :: ps, m, h => by
    rw [List.foldl_cons]
    exact nodup_keys_postsFold ps _ (nodup_keys_pushTags p.tags m (tagEntryOf p) h)

theorem get?_eq_none_of_not_mem {V : Type} (o : JsObj V) (tag : String)
    (h : tag ∉ o.entries.map Prod.fst) : o.get? tag = none := by
  have hf : o.entries.find? (fun e => e.1 = tag) = none := by
    rw [List.find?_eq_none]
    intro e he
    simp only [decide_eq_true_eq]
    intro hh
    exact h (List.mem_map.mpr ⟨e, he, hh⟩)
  unfold JsObj.get?
  rw [hf]
  rfl

theorem perm_jsObjKeysOrder (keys : List String) : List.Perm (jsObjKeysOrder keys) keys := by
  unfold jsObjKeysOrder
  exact ((List.perm_insertionSort _ _).append_right _).trans
    (List.filter_append_perm _ keys)

theorem buildTagsMap_unfold (cmpLe : String → String → Bool) (posts : List Post) :
    buildTagsMap cmpLe posts =
      (List.insertionSort (fun a b => cmpLe a b = true)
          ((postsTagsMap posts).keys)).foldl
        (fun s tag => s.set tag (((postsTagsMap posts).get? tag).getD []))
        (⟨[]⟩ : JsObj (List TagEntry)) := rfl

/-- C7 (amended): unconditionally, each tag's value in the tags map is
one summary record per occurrence of the tag in each post's tag list, in
the order of the (date-sorted) collection — hence in descending
publish-date order, matching the overall post order; and whenever no tag
is an integer-like string the map's keys come out sorted by the `pt-BR`
collator.  For an integer-like tag name the key order is instead broken
by ECMAScript's array-index key hoisting (see the counterexample), so
the spec's unconditional "keys sorted alphabetically" is corrected. -/
theorem buildTagsMap_spec (posts : List Post) :
    (∀ tag, (((buildTagsMap ptBRle posts).get? tag).getD []) =
      posts.flatMap (fun p => List.replicate (p.tags.count tag) (tagEntryOf p))) ∧
    ((∀ p ∈ posts, ∀ t ∈ p.tags, isArrayIndexKey t = false) →
      ((buildTagsMap ptBRle posts).keys).Pairwise (fun a b => ptBRle a b = true)) := by
  rw [buildTagsMap_unfold]
  set SK := List.insertionSort (fun a b => ptBRle a b = true) (postsTagsMap posts).keys
    with hSK
  have hndK : ((postsTagsMap posts).entries.map Prod.fst).Nodup :=
    nodup_keys_postsFold posts ⟨[]⟩ (by simp)
  have hndKeys : ((postsTagsMap posts).keys).Nodup :=
    ((perm_jsObjKeysOrder _).nodup_iff).mpr hndK
  have hndSK : SK.Nodup := ((List.perm_insertionSort _ _).nodup_iff).mpr hndKeys
  have hchar : ∀ tag, (((postsTagsMap posts).get? tag).getD []) =
      posts.flatMap (fun p => List.replicate (p.tags.count tag) (tagEntryOf p)) := by
    intro tag
    have h := get?_postsFold posts ⟨[]⟩ tag
    simpa [postsTagsMap, JsObj.get?] using h
  constructor
  · intro tag
    rw [get?_fillFold (postsTagsMap posts) SK (⟨[]⟩ : JsObj (List TagEntry)) tag]
    by_cases hmem : tag ∈ SK
    · rw [if_pos hmem, Option.getD_some]
      exact hchar tag
    · rw [if_neg hmem]
      have hnone : (postsTagsMap posts).get? tag = none := by
        apply get?_eq_none_of_not_mem
        intro hmem2
        exact hmem (((List.perm_insertionSort _ _).mem_iff.mpr)
          ((perm_jsObjKeysOrder _).mem_iff.mpr hmem2))
      have hchar2 := hchar tag
      rw [hnone] at hchar2
      simp only [Option.getD_none] at hchar2
      have hempty : ((⟨[]⟩ : JsObj (List TagEntry)).get? tag).getD [] = ([] : List TagEntry) :=
        rfl
      rw [hempty]
      exact hchar2
  · intro hnum
    have hmem : ∀ x ∈ SK, isArrayIndexKey x = false := by
      intro x hx
      have hx1 : x ∈ (postsTagsMap posts).keys :=
        (List.perm_insertionSort _ _).mem_iff.mp hx
      have hx2 : x ∈ (postsTagsMap posts).entries.map Prod.fst :=
        (perm_jsObjKeysOrder _).mem_iff.mp hx1
      rcases mem_keys_postsFold posts ⟨[]⟩ x hx2 with ⟨p, hp, ht⟩ | h2
      · exact hnum p hp x ht
      · simp at h2
    have hfill : ((SK.foldl (fun s tag => s.set tag (((postsTagsMap posts).get? tag).getD []))
        (⟨[]⟩ : JsObj (List TagEntry)))).entries.map Prod.fst = SK := by
      have h := entriesKeys_fill (postsTagsMap posts) SK
        (⟨[]⟩ : JsObj (List TagEntry)) hndSK (fun k _ hk => by simp at hk)
      simpa using h
    have hfilter1 : SK.filter isArrayIndexKey = [] := List.filter_eq_nil_iff.mpr (by
      intro x hx
      simp [hmem x hx])
    have hfilter2 : SK.filter (fun k => !isArrayIndexKey k) = SK := List.filter_eq_self.mpr (by
      intro x hx
      simp [hmem x hx])
    have hkeys : ((SK.foldl (fun s tag => s.set tag (((postsTagsMap posts).get? tag).getD []))
        (⟨[]⟩ : JsObj (List TagEntry)))).keys = SK := by
      unfold JsObj.keys
      rw [show (List.map (fun e => e.1)
          ((SK.foldl (fun s tag => s.set tag (((postsTagsMap posts).get? tag).getD []))
            (⟨[]⟩ : JsObj (List TagEntry)))).entries) = SK from hfill]
      unfold jsObjKeysOrder
      rw [hfilter1, hfilter2]
      rfl
    rw [hkeys, hSK]
    letI : IsTotal String (fun a b => ptBRle a b = true) := ⟨ptBRle_total⟩
    letI : IsTrans String (fun a b => ptBRle a b = true) := ⟨ptBRle_trans⟩
    exact List.sorted_insertionSort _ _

/-- C7 counterexample: a post tagged `10` and `9` produces the tag-map
keys `["9", "10"]` — ECMAScript enumerates integer-like object keys in
ascending numeric order regardless of insertion order — although the
`pt-BR` collator sorts `"10"` before `"9"`, so the keys are not
alphabetically sorted. -/
theorem buildTagsMap_numeric_keys_counterexample :
    (buildTagsMap ptBRle numericTagPosts).keys = ["9", "10"] ∧
    ptBRle "10" "9" = true ∧ ptBRle "9" "10" = false ∧
    ¬ ((buildTagsMap ptBRle numericTagPosts).keys).Pairwise
      (fun a b => ptBRle a b = true) := by
  refine ⟨by rfl, by rfl, by rfl, ?_⟩
  intro h
  rw [show (buildTagsMap ptBRle numericTagPosts).keys = ["9", "10"] from rfl] at h
  have h2 := (List.pairwise_cons.mp h).1 "10" (List.mem_cons_self "10" [])
  exact absurd h2 (by decide)

/-- C7 witness: on the four-post example collection the tag `x` maps to
one record per post carrying it, and — all tags being non-numeric — the
keys are collator-sorted. -/
theorem buildTagsMap_spec_witness :
    ((((buildTagsMap ptBRle relPosts).get? "x").getD []) =
      relPosts.flatMap (fun p => List.replicate (p.tags.count "x") (tagEntryOf p))) ∧
    (∀ p ∈ relPosts, ∀ t ∈ p.tags, isArrayIndexKey t = false) ∧
    ((buildTagsMap ptBRle relPosts).keys).Pairwise (fun a b => ptBRle a b = true) :=
  ⟨(buildTagsMap_spec relPosts).1 "x", by decide,
    (buildTagsMap_spec relPosts).2 (by decide)⟩

theorem dedupPages_not_seen : ∀ (ps : List Page) (seen : List String) (f : String),
    f ∈ (dedupPages ps seen).map Page.file → seen.contains f = false
  | [], _, _, h => by simp [dedupPages] at h
  | p :: ps, seen, f, h => by
    rw [dedupPages] at h
    split at h
    next hc => exact dedupPages_not_seen ps seen f h
    next hc =>
      simp only [List.map_cons, List.mem_cons] at h
      rcases h with h | h
      · subst h
        exact Bool.eq_false_iff.mpr hc
      · have h2 := dedupPages_not_seen ps (p.file :: seen) f h
        simp only [List.contains_cons, Bool.or_eq_false_iff] at h2
        exact h2.2

theorem dedupPages_nodup : ∀ (ps : List Page) (seen : List String),
    ((dedupPages ps seen).map Page.file).Nodup
  | [], _ => by simp [dedupPages]
  | p :: ps, seen => by
    rw [dedupPages]
    split
    next hc => exact dedupPages_nodup ps seen
    next hc =>
      simp only [List.map_cons, List.nodup_cons]
      refine ⟨?_, dedupPages_nodup ps (p.file :: seen)⟩
      intro hmem
      have h2 := dedupPages_not_seen ps (p.file :: seen) p.file hmem
      rw [List.contains_cons] at h2
      simp at h2

theorem dedupPages_mem : ∀ (ps : List Page) (seen : List String) (f : String),
    f ∈ (dedupPages ps seen).map Page.file ↔
      (f ∈ ps.map Page.file ∧ seen.contains f = false)
  | [], seen, f => by simp [dedupPages]
  | p :: ps, seen, f => by
    rw [dedupPages]
    split
    next hc =>
      rw [dedupPages_mem ps seen f]
      simp only [List.map_cons, List.mem_cons]
      constructor
      · rintro ⟨hm, hs⟩
        exact ⟨Or.inr hm, hs⟩
      · rintro ⟨hm | hm, hs⟩
        · subst hm
          rw [hs] at hc
          exact absurd hc (by simp)
        · exact ⟨hm, hs⟩
    next hc =>
      simp only [List.map_cons, List.mem_cons]
      rw [dedupPages_mem ps (p.file :: seen) f]
      constructor
      · rintro (h | ⟨hm, hs⟩)
        · subst h
          exact ⟨Or.inl rfl, Bool.eq_false_iff.mpr hc⟩
        · rw [List.contains_cons, Bool.or_eq_false_iff] at hs
          exact ⟨Or.inr hm, hs.2⟩
      · rintro ⟨h | hm, hs⟩
        · exact Or.inl h
        · by_cases hfp : f = p.file
          · exact Or.inl hfp
          · refine Or.inr ⟨hm, ?_⟩
            rw [List.contains_cons, Bool.or_eq_false_iff]
            exact ⟨by simp [hfp], hs⟩

theorem dedupPages_find : ∀ (ps : List Page) (seen : List String) (pg : Page),
    pg ∈ dedupPages ps seen → ps.find? (fun q => q.file = pg.file) = some pg
  | [], _, _, h => by simp [dedupPages] at h
  | p :: ps, seen, pg, h => by
    rw [dedupPages] at h
    split at h
    next hc =>
      have hne : p.file ≠ pg.file := by
        intro he
        have h2 := dedupPages_not_seen ps seen pg.file (List.mem_map.mpr ⟨pg, h, rfl⟩)
        rw [← he, hc] at h2
        exact Bool.noConfusion h2
      rw [List.find?_cons_of_neg _ (by simp [hne]), dedupPages_find ps seen pg h]
    next hc =>
      rcases List.mem_cons.mp h with h | h
      · subst h
        rw [List.find?_cons_of_pos _ (by simp)]
      · have hne : p.file ≠ pg.file := by
          intro he
          have h2 := dedupPages_not_seen ps (p.file :: seen) pg.file
            (List.mem_map.mpr ⟨pg, h, rfl⟩)
          rw [List.contains_cons] at h2
          simp [← he] at h2
        rw [List.find?_cons_of_neg _ (by simp [hne]),
          dedupPages_find ps (p.file :: seen) pg h]

/-- C8: the sitemap holds exactly one entry per distinct page path — its
entry list has pairwise-distinct paths covering exactly the paths pushed
during the build, and a retained entry is the first pushed record with
its path — and in the accumulated page list every record is either a post
page stamped with that post's publish time or a record stamped with the
build instant. -/
theorem sitemap_spec (pages : List Page) (buildTime : Nat) (posts : List Post)
    (tagsMap : JsObj (List TagEntry)) :
    ((sitemapEntries pages).map Page.file).Nodup ∧
    (∀ f, f ∈ (sitemapEntries pages).map Page.file ↔ f ∈ pages.map Page.file) ∧
    (∀ pg ∈ sitemapEntries pages, pages.find? (fun q => q.file = pg.file) = some pg) ∧
    (∀ pg ∈ collectPages buildTime posts tagsMap,
      (∃ post ∈ posts, pg.file = "/posts/" ++ post.slug ++ ".html" ∧
        pg.lastmod = post.date) ∨
      pg.lastmod = buildTime) := by
  refine ⟨dedupPages_nodup pages [], ?_, fun pg h => dedupPages_find pages [] pg h, ?_⟩
  · intro f
    unfold sitemapEntries
    rw [dedupPages_mem pages [] f]
    simp
  · intro pg hpg
    unfold collectPages at hpg
    rcases List.mem_append.mp hpg with h | h
    · rcases List.mem_append.mp h with h | h
      · right
        simp at h
        rcases h with h | h | h | h <;> rw [h]
      · left
        rcases List.mem_map.mp h with ⟨post, hp, he⟩
        exact ⟨post, hp, by rw [← he], by rw [← he]⟩
    · right
      rcases List.mem_map.mp h with ⟨e, he, hee⟩
      rw [← hee]
